import Mathlib

/-!
Verification development for the AnyToolCall proxy (src/index.js).

The source is a Node.js HTTP proxy that adds tool-calling to plain-text
LLM backends by marking tool-call regions with randomly chosen delimiter
strings, rewriting requests into plain text, and decoding the marked
regions back out of (streaming or non-streaming) responses.

Conventions of the embedding:
- Text is modelled as `List Char`.  The upstream byte stream is decoded
  to text by a streaming UTF-8 decoder before it reaches the code
  modelled here, so character granularity is faithful.
- `Math.random()` outcomes are modelled as explicit index parameters.
- The `Date.now()`-based fragment of a generated tool-call identifier is
  wall-clock time; identifiers are modelled as the ordinal of the
  accepted call, which is the deterministic part of the id.
-/

/-- Shorthand: the character list of a string literal. -/
def S (s : String) : List Char := s.data

/- ============ Delimiter pools (src/index.js lines 80-92) ============ -/

structure DelimTriple where
  dopen : List Char
  dclose : List Char
  dmid : List Char
deriving DecidableEq, Repr

def DELIMITER_SETS : List DelimTriple :=
  [⟨['༒'], ['༒'], ['࿇']⟩,
   ⟨['꧁'], ['꧂'], ['࿔']⟩,
   ⟨['᎒'], ['᎒'], ['᎓']⟩,
   ⟨['ꆈ'], ['ꆈ'], ['ꊰ']⟩,
   ⟨['꩜'], ['꩜'], ['꩟']⟩,
   ⟨['ꓸ'], ['ꓸ'], ['ꓹ']⟩]

def SUFFIX_POOL : List (List Char) :=
  [['龘'], ['靐'], ['齉'], ['麤'], ['爨'], ['驫'], ['鱻'], ['羴'], ['犇'], ['骉'],
   ['飝'], ['厵'], ['靇'], ['飍'], ['馫'], ['灥'], ['厽'], ['叒'], ['叕'], ['芔']]

structure Markers where
  TC_START : List Char
  TC_END : List Char
  NAME_START : List Char
  NAME_END : List Char
  ARGS_START : List Char
  ARGS_END : List Char
  RESULT_START : List Char
  RESULT_END : List Char
deriving DecidableEq, Repr

def generateMarkers (setIdx s1Idx s2Idx : Nat) : Markers :=
  let set := DELIMITER_SETS.getD setIdx ⟨[], [], []⟩
  let suffix1 := SUFFIX_POOL.getD s1Idx []
  let suffix2 := SUFFIX_POOL.getD s2Idx []
  { TC_START := set.dopen ++ suffix1 ++ ['ᐅ']
    TC_END := ['ᐊ'] ++ suffix1 ++ set.dclose
    NAME_START := set.dmid ++ ['▸']
    NAME_END := ['◂'] ++ set.dmid
    ARGS_START := set.dmid ++ ['▹']
    ARGS_END := ['◃'] ++ set.dmid
    RESULT_START := set.dopen ++ suffix2 ++ ['⟫']
    RESULT_END := ['⟪'] ++ suffix2 ++ set.dclose }

def tokensOf (M : Markers) : List (List Char) :=
  [M.TC_START, M.TC_END, M.NAME_START, M.NAME_END,
   M.ARGS_START, M.ARGS_END, M.RESULT_START, M.RESULT_END]

def PairP (a b : List Char) : Prop := a ≠ b ∧ ¬ a <:+: b ∧ ¬ b <:+: a

def tokensDistinctNoSub (M : Markers) : Prop :=
  (tokensOf M).Pairwise PairP

theorem PairP.symm {a b : List Char} (h : PairP a b) : PairP b a :=
  ⟨h.1.symm, h.2.2, h.2.1⟩

theorem not_infix_of_longer {a b : List Char} (h : b.length < a.length) :
    ¬ a <:+: b := fun hi => absurd hi.length_le (by omega)

theorem eq_of_infix_of_length {a b : List Char} (hi : a <:+: b)
    (h : a.length = b.length) : a = b :=
  hi.sublist.eq_of_length h

theorem PairP_same_len {a b : List Char} (hlen : a.length = b.length)
    (hne : a ≠ b) : PairP a b :=
  ⟨hne, fun hi => hne (eq_of_infix_of_length hi hlen),
    fun hi => hne (eq_of_infix_of_length hi hlen.symm).symm⟩

theorem infix_two_three {x y p q r : Char} (h : [x, y] <:+: [p, q, r]) :
    (x = p ∧ y = q) ∨ (x = q ∧ y = r) := by
  rcases h with ⟨s, t, hb⟩
  rcases s with _ | ⟨z, _ | ⟨w, s⟩⟩
  · left
    simp only [List.nil_append, List.cons_append, List.cons.injEq] at hb
    exact ⟨hb.1, hb.2.1⟩
  · right
    simp only [List.cons_append, List.nil_append, List.cons.injEq] at hb
    exact ⟨hb.2.1, hb.2.2.1⟩
  · exfalso
    have hl := congrArg List.length hb
    simp only [List.length_append, List.length_cons] at hl
    omega

theorem PairP_23 {x y p q r : Char} (h1 : ¬(x = p ∧ y = q))
    (h2 : ¬(x = q ∧ y = r)) : PairP [x, y] [p, q, r] :=
  ⟨by intro h; simpa using congrArg List.length h,
    fun hi => (infix_two_three hi).elim h1 h2,
    not_infix_of_longer (by simp)⟩

/-- head-char disequality gives list disequality -/
theorem ne_of_head {x y : Char} {xs ys : List Char} (h : x ≠ y) :
    x :: xs ≠ y :: ys := by intro hc; exact h (by injection hc)

theorem ne_of_second2 {a b x y : Char} (h : x ≠ y) : [a, x] ≠ [b, y] := by
  intro hc
  injection hc with h1 h2
  injection h2 with h3 h4
  exact h h3

theorem ne_of_third {a b c d x y : Char} (h : x ≠ y) :
    [a, b, x] ≠ [c, d, y] := by
  intro hc
  injection hc with h1 h2
  injection h2 with h3 h4
  injection h4 with h5 h6
  exact h h5

def arrowFree (u : Char) : Prop :=
  u ≠ 'ᐅ' ∧ u ≠ 'ᐊ' ∧ u ≠ '▸' ∧ u ≠ '◂' ∧ u ≠ '▹' ∧ u ≠ '◃' ∧ u ≠ '⟫' ∧ u ≠ '⟪'

instance (u : Char) : Decidable (arrowFree u) :=
  decidable_of_iff
    (u ≠ 'ᐅ' ∧ u ≠ 'ᐊ' ∧ u ≠ '▸' ∧ u ≠ '◂' ∧ u ≠ '▹' ∧ u ≠ '◃' ∧ u ≠ '⟫' ∧ u ≠ '⟪')
    Iff.rfl

def charsOK (o c d a b : Char) : Prop :=
  d ≠ o ∧ d ≠ c ∧ d ≠ a ∧ d ≠ b ∧
  arrowFree o ∧ arrowFree c ∧ arrowFree d ∧ arrowFree a ∧ arrowFree b

set_option maxHeartbeats 1000000 in
theorem tokensDistinctNoSub_mk (o c d a b : Char) (h : charsOK o c d a b) :
    tokensDistinctNoSub
      ⟨[o, a, 'ᐅ'], ['ᐊ', a, c], [d, '▸'], ['◂', d], [d, '▹'], ['◃', d],
       [o, b, '⟫'], ['⟪', b, c]⟩ := by
  obtain ⟨hdo, hdc, hda, hdb, ⟨o1,o2,o3,o4,o5,o6,o7,o8⟩, ⟨c1,c2,c3,c4,c5,c6,c7,c8⟩,
    ⟨d1,d2,d3,d4,d5,d6,d7,d8⟩, ⟨a1,a2,a3,a4,a5,a6,a7,a8⟩, ⟨b1,b2,b3,b4,b5,b6,b7,b8⟩⟩ := h
  unfold tokensDistinctNoSub tokensOf
  simp only [List.pairwise_cons, List.mem_cons, List.not_mem_nil, List.mem_singleton,
    List.Pairwise.nil, forall_eq_or_imp, forall_eq, or_false, false_or]
  refine ⟨⟨?_, ?_, ?_, ?_, ?_, ?_, ?_⟩, ⟨?_, ?_, ?_, ?_, ?_, ?_⟩,
    ⟨?_, ?_, ?_, ?_, ?_⟩, ⟨?_, ?_, ?_, ?_⟩, ⟨?_, ?_, ?_⟩, ⟨?_, ?_⟩, ?_,
    fun a hf => hf.elim, trivial⟩
  -- T1 vs T2
  · exact PairP_same_len rfl (ne_of_head o2)
  -- T1 vs T3
  · exact (PairP_23 (fun ⟨h1,_⟩ => hdo h1) (fun ⟨h1,_⟩ => hda h1)).symm
  -- T1 vs T4
  · exact (PairP_23 (fun ⟨h1,_⟩ => o4 h1.symm) (fun ⟨h1,_⟩ => a4 h1.symm)).symm
  -- T1 vs T5
  · exact (PairP_23 (fun ⟨h1,_⟩ => hdo h1) (fun ⟨h1,_⟩ => hda h1)).symm
  -- T1 vs T6
  · exact (PairP_23 (fun ⟨h1,_⟩ => o6 h1.symm) (fun ⟨h1,_⟩ => a6 h1.symm)).symm
  -- T1 vs T7
  · exact PairP_same_len rfl (ne_of_third (by decide))
  -- T1 vs T8
  · exact PairP_same_len rfl (ne_of_head o8)
  -- T2 vs T3
  · exact (PairP_23 (fun ⟨h1,_⟩ => d2 h1) (fun ⟨h1,_⟩ => hda h1)).symm
  -- T2 vs T4
  · exact (PairP_23 (fun ⟨h1,_⟩ => absurd h1 (by decide)) (fun ⟨h1,_⟩ => a4 h1.symm)).symm
  -- T2 vs T5
  · exact (PairP_23 (fun ⟨h1,_⟩ => d2 h1) (fun ⟨h1,_⟩ => hda h1)).symm
  -- T2 vs T6
  · exact (PairP_23 (fun ⟨h1,_⟩ => absurd h1 (by decide)) (fun ⟨h1,_⟩ => a6 h1.symm)).symm
  -- T2 vs T7
  · exact PairP_same_len rfl (ne_of_head (fun h => o2 h.symm))
  -- T2 vs T8
  · exact PairP_same_len rfl (ne_of_head (by decide))
  -- T3 vs T4
  · exact PairP_same_len rfl (ne_of_head d4)
  -- T3 vs T5
  · exact PairP_same_len rfl (ne_of_second2 (by decide))
  -- T3 vs T6
  · exact PairP_same_len rfl (ne_of_head d6)
  -- T3 vs T7
  · exact PairP_23 (fun ⟨h1,_⟩ => hdo h1) (fun ⟨h1,_⟩ => hdb h1)
  -- T3 vs T8
  · exact PairP_23 (fun ⟨h1,_⟩ => d8 h1) (fun ⟨h1,_⟩ => hdb h1)
  -- T4 vs T5
  · exact PairP_same_len rfl (ne_of_head (fun h => d4 h.symm))
  -- T4 vs T6
  · exact PairP_same_len rfl (ne_of_head (by decide))
  -- T4 vs T7
  · exact PairP_23 (fun ⟨h1,_⟩ => o4 h1.symm) (fun ⟨h1,_⟩ => b4 h1.symm)
  -- T4 vs T8
  · exact PairP_23 (fun ⟨h1,_⟩ => absurd h1 (by decide)) (fun ⟨h1,_⟩ => b4 h1.symm)
  -- T5 vs T6
  · exact PairP_same_len rfl (ne_of_head d6)
  -- T5 vs T7
  · exact PairP_23 (fun ⟨h1,_⟩ => hdo h1) (fun ⟨h1,_⟩ => hdb h1)
  -- T5 vs T8
  · exact PairP_23 (fun ⟨h1,_⟩ => d8 h1) (fun ⟨h1,_⟩ => hdb h1)
  -- T6 vs T7
  · exact PairP_23 (fun ⟨h1,_⟩ => o6 h1.symm) (fun ⟨h1,_⟩ => b6 h1.symm)
  -- T6 vs T8
  · exact PairP_23 (fun ⟨h1,_⟩ => absurd h1 (by decide)) (fun ⟨h1,_⟩ => b6 h1.symm)
  -- T7 vs T8
  · exact PairP_same_len rfl (ne_of_head o8)

/-- Facts about each suffix-pool entry: it is one char, not one of the
special bracket chars, and not one of the six mid chars. -/
def poolEntryOK : List Char → Prop
  | [u] => arrowFree u ∧ u ≠ '࿇' ∧ u ≠ '࿔' ∧ u ≠ '᎓' ∧ u ≠ 'ꊰ' ∧ u ≠ '꩟' ∧ u ≠ 'ꓹ'
  | _ => False

instance : DecidablePred poolEntryOK := fun xs =>
  match xs with
  | [] => isFalse (fun h => h)
  | [u] => decidable_of_iff
      (arrowFree u ∧ u ≠ '࿇' ∧ u ≠ '࿔' ∧ u ≠ '᎓' ∧ u ≠ 'ꊰ' ∧ u ≠ '꩟' ∧ u ≠ 'ꓹ')
      Iff.rfl
  | _ :: _ :: _ => isFalse (fun h => h)

theorem pool_ok : ∀ j < 20, poolEntryOK (SUFFIX_POOL.getD j []) := by decide

theorem poolEntryOK_elim {xs : List Char} (h : poolEntryOK xs) :
    ∃ u, xs = [u] ∧ arrowFree u ∧ u ≠ '࿇' ∧ u ≠ '࿔' ∧ u ≠ '᎓' ∧
      u ≠ 'ꊰ' ∧ u ≠ '꩟' ∧ u ≠ 'ꓹ' := by
  match xs with
  | [u] => exact ⟨u, rfl, h⟩
  | [] => exact h.elim
  | _ :: _ :: _ => exact h.elim

theorem c9_all : ∀ i < 6, ∀ j < 20, ∀ k < 20,
    tokensDistinctNoSub (generateMarkers i j k) := by
  intro i hi j hj k hk
  obtain ⟨u, hu, hua, m1, m2, m3, m4, m5, m6⟩ := poolEntryOK_elim (pool_ok j hj)
  obtain ⟨v, hv, hva, n1, n2, n3, n4, n5, n6⟩ := poolEntryOK_elim (pool_ok k hk)
  interval_cases i <;>
    simp only [generateMarkers, DELIMITER_SETS, hu, hv,
      List.getD_cons_zero, List.getD_cons_succ, List.cons_append, List.nil_append]
  · exact tokensDistinctNoSub_mk _ _ _ _ _
      ⟨by decide, by decide, m1.symm, n1.symm, by decide, by decide, by decide, hua, hva⟩
  · exact tokensDistinctNoSub_mk _ _ _ _ _
      ⟨by decide, by decide, m2.symm, n2.symm, by decide, by decide, by decide, hua, hva⟩
  · exact tokensDistinctNoSub_mk _ _ _ _ _
      ⟨by decide, by decide, m3.symm, n3.symm, by decide, by decide, by decide, hua, hva⟩
  · exact tokensDistinctNoSub_mk _ _ _ _ _
      ⟨by decide, by decide, m4.symm, n4.symm, by decide, by decide, by decide, hua, hva⟩
  · exact tokensDistinctNoSub_mk _ _ _ _ _
      ⟨by decide, by decide, m5.symm, n5.symm, by decide, by decide, by decide, hua, hva⟩
  · exact tokensDistinctNoSub_mk _ _ _ _ _
      ⟨by decide, by decide, m6.symm, n6.symm, by decide, by decide, by decide, hua, hva⟩

/-- C9 as stated: on every outcome of the random draws, the 8 tokens are
pairwise distinct, none a substring of another, and the two decorative
suffixes picked are distinct from each other. -/
def claimC9 : Prop :=
  ∀ i < 6, ∀ j < 20, ∀ k < 20,
    tokensDistinctNoSub (generateMarkers i j k) ∧
    SUFFIX_POOL.getD j [] ≠ SUFFIX_POOL.getD k []

/-- C9, counterexample: the two suffix draws are independent
(`Math.floor(Math.random() * SUFFIX_POOL.length)` twice, src/index.js
lines 102-103), so the outcome picking pool index 0 twice chooses the
same decorative suffix for both draws, refuting the distinct-suffixes
part of the claim. -/
theorem c9_counterexample : ¬ claimC9 := fun h =>
  (h 0 (by decide) 0 (by decide) 0 (by decide)).2 rfl

/-- C9 (amended): on every outcome of the random draws the 8 generated
marker tokens are pairwise distinct and none is a substring of another;
the two decorative suffixes are drawn independently and may coincide. -/
theorem c9_amended_tokens_distinct : ∀ i < 6, ∀ j < 20, ∀ k < 20,
    tokensDistinctNoSub (generateMarkers i j k) :=
  c9_all

/-- Witness for c9_amended_tokens_distinct at the concrete outcome
(0, 0, 1). -/
theorem c9_amended_tokens_distinct_witness :
    tokensDistinctNoSub (generateMarkers 0 0 1) :=
  c9_amended_tokens_distinct 0 (by decide) 0 (by decide) 1 (by decide)

/- ============ JavaScript whitespace and trim ============ -/

/-- ECMAScript WhiteSpace plus LineTerminator, the character class used
both by the regex class and by String.prototype.trim / trimStart. -/
def isJsWs (c : Char) : Bool :=
  let n := c.toNat
  n == 0x09 || n == 0x0A || n == 0x0B || n == 0x0C || n == 0x0D || n == 0x20 ||
  n == 0xA0 || n == 0x1680 || (0x2000 ≤ n && n ≤ 0x200A) || n == 0x2028 ||
  n == 0x2029 || n == 0x202F || n == 0x205F || n == 0x3000 || n == 0xFEFF

/-- String.prototype.trimStart. -/
def trimStartJs (s : List Char) : List Char := s.dropWhile isJsWs

/-- String.prototype.trim. -/
def trimJs (s : List Char) : List Char :=
  ((s.dropWhile isJsWs).reverse.dropWhile isJsWs).reverse

/- ============ JSON values, JSON.parse, JSON.stringify ============ -/

/-- A JSON value.  Numbers keep their source lexeme: the code never does
arithmetic on JSON numbers, and every number this model constructs is
written the way JSON.stringify would print it. -/
inductive Json where
  | null : Json
  | bool (b : Bool) : Json
  | num (lexeme : List Char) : Json
  | str (s : List Char) : Json
  | arr (elems : List Json) : Json
  | obj (fields : List (List Char × Json)) : Json

/-- Whitespace of the JSON grammar (as consumed by JSON.parse): tab,
line feed, carriage return, space only. -/
def isJsonWs (c : Char) : Bool :=
  c == ' ' || c == '\t' || c == '\n' || c == '\r'

/-- If pat is a prefix of s, the remainder of s after it. -/
def stripPre (pat s : List Char) : Option (List Char) :=
  match pat, s with
  | [], rest => some rest
  | _ :: _, [] => none
  | p :: ps, c :: cs => if p = c then stripPre ps cs else none

def hexVal (c : Char) : Option Nat :=
  let n := c.toNat
  if 0x30 ≤ n ∧ n ≤ 0x39 then some (n - 0x30)
  else if 0x41 ≤ n ∧ n ≤ 0x46 then some (n - 0x41 + 10)
  else if 0x61 ≤ n ∧ n ≤ 0x66 then some (n - 0x61 + 10)
  else none

/-- The body of a JSON string after the opening quote: returns the
decoded content and the remainder after the closing quote.  A \uXXXX
escape denoting a surrogate half is rejected here (a Unicode scalar
model of strings cannot carry lone surrogates); no input in this
development contains one. -/
def parseJsonStringF : Nat → List Char → Option (List Char × List Char)
  | 0, _ => none
  | fuel + 1, s =>
    match s with
    | [] => none
    | '"' :: rest => some ([], rest)
    | '\\' :: e :: rest =>
      match e with
      | '"' => (parseJsonStringF fuel rest).map (fun p => ('"' :: p.1, p.2))
      | '\\' => (parseJsonStringF fuel rest).map (fun p => ('\\' :: p.1, p.2))
      | '/' => (parseJsonStringF fuel rest).map (fun p => ('/' :: p.1, p.2))
      | 'b' => (parseJsonStringF fuel rest).map (fun p => ('\x08' :: p.1, p.2))
      | 'f' => (parseJsonStringF fuel rest).map (fun p => ('\x0c' :: p.1, p.2))
      | 'n' => (parseJsonStringF fuel rest).map (fun p => ('\n' :: p.1, p.2))
      | 'r' => (parseJsonStringF fuel rest).map (fun p => ('\r' :: p.1, p.2))
      | 't' => (parseJsonStringF fuel rest).map (fun p => ('\t' :: p.1, p.2))
      | 'u' =>
        match rest with
        | h1 :: h2 :: h3 :: h4 :: rest2 =>
          match hexVal h1, hexVal h2, hexVal h3, hexVal h4 with
          | some a, some b, some c, some d =>
            let n := ((a * 16 + b) * 16 + c) * 16 + d
            if n < 0xD800 ∨ (0xDFFF < n ∧ n < 0x110000) then
              (parseJsonStringF fuel rest2).map
                (fun p => (Char.ofNat n :: p.1, p.2))
            else none
          | _, _, _, _ => none
        | _ => none
      | _ => none
    | c :: rest =>
      if c.toNat < 0x20 then none
      else (parseJsonStringF fuel rest).map (fun p => (c :: p.1, p.2))

/-- JSON number grammar: optional fraction part. -/
def parseFracPart (s : List Char) : Option (List Char × List Char) :=
  match s with
  | '.' :: r =>
    let d := r.takeWhile Char.isDigit
    if d.isEmpty then none else some ('.' :: d, r.dropWhile Char.isDigit)
  | _ => some ([], s)

/-- JSON number grammar: optional exponent part. -/
def parseExpPart (s : List Char) : Option (List Char × List Char) :=
  match s with
  | c :: r =>
    if c = 'e' ∨ c = 'E' then
      let sg := match r with
        | '+' :: _ => ['+']
        | '-' :: _ => ['-']
        | _ => []
      let r2 := r.drop sg.length
      let d := r2.takeWhile Char.isDigit
      if d.isEmpty then none else some (c :: (sg ++ d), r2.dropWhile Char.isDigit)
    else some ([], s)
  | [] => some ([], [])

/-- JSON number grammar; returns the lexeme and the remainder. -/
def parseNumber (s : List Char) : Option (List Char × List Char) :=
  let sg : List Char := match s with
    | '-' :: _ => ['-']
    | _ => []
  let s1 := s.drop sg.length
  let ip : Option (List Char × List Char) :=
    match s1 with
    | '0' :: r => some (['0'], r)
    | c :: r =>
      if c.isDigit then
        some (c :: r.takeWhile Char.isDigit, r.dropWhile Char.isDigit)
      else none
    | [] => none
  match ip with
  | none => none
  | some (ipart, r1) =>
    match parseFracPart r1 with
    | none => none
    | some (fpart, r2) =>
      match parseExpPart r2 with
      | none => none
      | some (epart, r3) => some (sg ++ ipart ++ fpart ++ epart, r3)

mutual

/-- JSON grammar value; the input is positioned at the first character
of the value (whitespace already skipped by the caller). -/
def parseValueF : Nat → List Char → Option (Json × List Char)
  | 0, _ => none
  | f + 1, s =>
    match s with
    | 'n' :: t => (stripPre (S "ull") t).map (fun r => (Json.null, r))
    | 't' :: t => (stripPre (S "rue") t).map (fun r => (Json.bool true, r))
    | 'f' :: t => (stripPre (S "alse") t).map (fun r => (Json.bool false, r))
    | '"' :: t => (parseJsonStringF (t.length + 1) t).map (fun p => (Json.str p.1, p.2))
    | '[' :: t =>
      let t1 := t.dropWhile isJsonWs
      match t1 with
      | ']' :: r => some (Json.arr [], r)
      | _ => (parseArrayItemsF f t1).map (fun p => (Json.arr p.1, p.2))
    | '{' :: t =>
      let t1 := t.dropWhile isJsonWs
      match t1 with
      | '}' :: r => some (Json.obj [], r)
      | _ => (parseObjItemsF f t1).map (fun p => (Json.obj p.1, p.2))
    | _ => (parseNumber s).map (fun p => (Json.num p.1, p.2))

/-- JSON grammar element: ws value ws. -/
def parseElementF : Nat → List Char → Option (Json × List Char)
  | 0, _ => none
  | f + 1, s =>
    (parseValueF f (s.dropWhile isJsonWs)).map
      (fun p => (p.1, p.2.dropWhile isJsonWs))

/-- Nonempty comma-separated array elements, up to the closing bracket. -/
def parseArrayItemsF : Nat → List Char → Option (List Json × List Char)
  | 0, _ => none
  | f + 1, s =>
    match parseElementF f s with
    | none => none
    | some (v, r) =>
      match r with
      | ',' :: r2 => (parseArrayItemsF f r2).map (fun p => (v :: p.1, p.2))
      | ']' :: r2 => some ([v], r2)
      | _ => none

/-- Nonempty comma-separated object members, up to the closing brace. -/
def parseObjItemsF : Nat → List Char → Option (List (List Char × Json) × List Char)
  | 0, _ => none
  | f + 1, s =>
    match s.dropWhile isJsonWs with
    | '"' :: t =>
      match parseJsonStringF (t.length + 1) t with
      | none => none
      | some (key, r) =>
        match r.dropWhile isJsonWs with
        | ':' :: r2 =>
          match parseElementF f r2 with
          | none => none
          | some (v, r3) =>
            match r3 with
            | ',' :: r4 => (parseObjItemsF f r4).map (fun p => ((key, v) :: p.1, p.2))
            | '}' :: r4 => some ([(key, v)], r4)
            | _ => none
        | _ => none
    | _ => none

end

/-- JSON.parse (syntax only, values as `Json`): succeeds iff the whole
input is one JSON element. -/
def jsonParse (s : List Char) : Option Json :=
  match parseElementF (s.length + 1) s with
  | some (v, []) => some v
  | _ => none

/-- `JSON.parse(x)` succeeds (does not throw). -/
def jsonValidB (s : List Char) : Bool := (jsonParse s).isSome

/-- JSON.stringify escaping of one string character. -/
def jsonEscapeChar (c : Char) : List Char :=
  if c = '"' then S "\\\""
  else if c = '\\' then S "\\\\"
  else if c = '\x08' then S "\\b"
  else if c = '\t' then S "\\t"
  else if c = '\n' then S "\\n"
  else if c = '\x0c' then S "\\f"
  else if c = '\r' then S "\\r"
  else if c.toNat < 0x20 then
    let lo := c.toNat % 16
    let hi := c.toNat / 16
    let hexDigit := fun (n : Nat) => if n < 10 then Char.ofNat (0x30 + n) else Char.ofNat (0x61 + n - 10)
    S "\\u00" ++ [hexDigit hi, hexDigit lo]
  else [c]

/-- JSON.stringify of a string (with quotes). -/
def jsonQuote (s : List Char) : List Char :=
  '"' :: (s.flatMap jsonEscapeChar) ++ ['"']

mutual

/-- JSON.stringify (no indentation: separators are "," and ":"). -/
def stringify : Json → List Char
  | Json.null => S "null"
  | Json.bool true => S "true"
  | Json.bool false => S "false"
  | Json.num l => l
  | Json.str s => jsonQuote s
  | Json.arr xs => '[' :: stringifyArr xs ++ [']']
  | Json.obj kvs => '{' :: stringifyObj kvs ++ ['}']

def stringifyArr : List Json → List Char
  | [] => []
  | [x] => stringify x
  | x :: y :: xs => stringify x ++ ',' :: stringifyArr (y :: xs)

def stringifyObj : List (List Char × Json) → List Char
  | [] => []
  | [(k, v)] => jsonQuote k ++ ':' :: stringify v
  | (k, v) :: y :: xs => jsonQuote k ++ ':' :: stringify v ++ ',' :: stringifyObj (y :: xs)

end

/- ============ Json object access (JS property semantics) ============ -/

/-- JS property read `o[k]` on a decoded JSON value; undefined is none.
(Objects decoded from JSON have unique keys; the first match is the
only match.) -/
def Json.get : Json → List Char → Option Json
  | Json.obj kvs, k => (kvs.find? (fun kv => kv.1 == k)).map Prod.snd
  | _, _ => none

/-- JS property write `o[k] = v` (replace in place, else append). -/
def Json.set : Json → List Char → Json → Json
  | Json.obj kvs, k, v =>
    if (kvs.find? (fun kv => kv.1 == k)).isSome then
      Json.obj (kvs.map (fun kv => if kv.1 == k then (kv.1, v) else kv))
    else Json.obj (kvs ++ [(k, v)])
  | o, _, _ => o

/-- JS `delete o[k]`. -/
def Json.del : Json → List Char → Json
  | Json.obj kvs, k => Json.obj (kvs.filter (fun kv => kv.1 != k))
  | o, _ => o

/-- `o[0]` on a decoded JSON array. -/
def Json.head? : Json → Option Json
  | Json.arr (x :: _) => some x
  | _ => none

example : jsonValidB (S "\x7b\x7d") = true := by decide
example : jsonValidB (S " \x7b \"a\" : [1, -2.5e3, null, true, \"x\"] \x7d ") = true := by decide
example : jsonValidB (S "not json") = false := by decide
example : jsonValidB (S "\x7b") = false := by decide
example : jsonValidB (S "") = false := by decide
example : jsonValidB (S "1 2") = false := by decide

/- ============ ToolCallDelimiter.parse (src/index.js 176-211) ============ -/

/-- Greedy whitespace skip for the regex fragments of the form
`\s* LITERAL`.  Greedy matching with backtracking is exact here because
every literal that follows a whitespace star in the pattern begins with
a non-whitespace character for every generated marker set. -/
def dropWs (s : List Char) : List Char := s.dropWhile isJsWs

/-- The backtracking search of a lazy group `([\s\S]*?) pat cont`:
finds the shortest split `s = grp ++ pat ++ r` such that the
continuation `p` succeeds on `r`, trying occurrences of pat from left
to right exactly as the regex engine grows the lazy group. -/
def findSplitSat {α : Type} (pat : List Char) (p : List Char → Option α) :
    List Char → Option (List Char × α)
  | [] =>
    match stripPre pat [] with
    | some rest => (p rest).map (fun a => (([] : List Char), a))
    | none => none
  | c :: cs =>
    match stripPre pat (c :: cs) with
    | some rest =>
      match p rest with
      | some a => some ([], a)
      | none => (findSplitSat pat p cs).map (fun ba => (c :: ba.1, ba.2))
    | none => (findSplitSat pat p cs).map (fun ba => (c :: ba.1, ba.2))

/-- One attempt of the tool-call regex anchored at the start of s:
`TC_START \s* NAME_START (lazy name) NAME_END \s* ARGS_START (lazy args)
ARGS_END \s* TC_END`; returns ((name, args), rest-after-match). -/
def matchAt (M : Markers) (s : List Char) :
    Option ((List Char × List Char) × List Char) :=
  (stripPre M.TC_START s).bind fun s1 =>
  (stripPre M.NAME_START (dropWs s1)).bind fun s2 =>
  (findSplitSat M.NAME_END (fun r =>
      (stripPre M.ARGS_START (dropWs r)).bind fun r2 =>
      findSplitSat M.ARGS_END (fun r3 => stripPre M.TC_END (dropWs r3)) r2) s2).map
    (fun x => ((x.1, x.2.1), x.2.2))

/-- The leftmost regex match in s: (text before the match,
(name, args), text after the match). -/
def findMatch (M : Markers) :
    List Char → Option (List Char × (List Char × List Char) × List Char)
  | [] => (matchAt M []).map (fun x => (([] : List Char), x.1, x.2))
  | c :: cs =>
    match matchAt M (c :: cs) with
    | some x => some ([], x.1, x.2)
    | none => (findMatch M cs).map (fun y => (c :: y.1, y.2.1, y.2.2))

/-- The `regex.exec` loop: all successive non-overlapping matches in
left-to-right order, and the input with the matched regions removed
(which is what `content.replace(regex, '')` computes).  Each match
consumes at least the nonempty TC_START token, so `length + 1` fuel is
always sufficient. -/
def parseRecF (M : Markers) : Nat → List Char → List (List Char × List Char) × List Char
  | 0, s => ([], s)
  | fuel + 1, s =>
    match findMatch M s with
    | none => ([], s)
    | some (before, na, rest) =>
      let pr := parseRecF M fuel rest
      (na :: pr.1, before ++ pr.2)

/-- A decoded tool call.  `id` is the ordinal of the accepted call (the
source id `call_${Date.now()}_${idx}` also embeds wall-clock time). -/
structure ToolCall where
  id : Nat
  name : List Char
  arguments : List Char
deriving DecidableEq, Repr

/-- `ToolCallDelimiter.parse` (src/index.js 176-211): extracts marker
delimited calls, keeps only those whose trimmed argument text parses as
JSON, and removes every matched region (JSON-valid or not) from the
residual, which is then trimmed. -/
def ToolCallDelimiter.parse (M : Markers) (content : List Char) :
    List ToolCall × List Char :=
  let pr := parseRecF M (content.length + 1) content
  let accepted := pr.1.filter (fun na => jsonValidB (trimJs na.2))
  (accepted.enum.map (fun p => ⟨p.1, trimJs p.2.1, trimJs p.2.2⟩),
   trimJs pr.2)

/-- A fixed outcome of the marker generation, used by all concrete
examples, witnesses and counterexamples. -/
def M0 : Markers := generateMarkers 0 0 1

example : M0.TC_START = S "༒龘ᐅ" ∧ M0.TC_END = S "ᐊ龘༒" ∧
    M0.NAME_START = S "࿇▸" ∧ M0.NAME_END = S "◂࿇" ∧
    M0.ARGS_START = S "࿇▹" ∧ M0.ARGS_END = S "◃࿇" ∧
    M0.RESULT_START = S "༒靐⟫" ∧ M0.RESULT_END = S "⟪靐༒" := by decide

example : ToolCallDelimiter.parse M0 (S " hello ") = ([], S "hello") := by decide

example : ToolCallDelimiter.parse M0
    (S "A ༒龘ᐅ\n࿇▸ f ◂࿇\n࿇▹ \x7b\"x\": 1\x7d ◃࿇\nᐊ龘༒ B") =
    ([⟨0, S "f", S "\x7b\"x\": 1\x7d"⟩], S "A  B") := by decide

example : ToolCallDelimiter.parse M0
    (S "A ༒龘ᐅ࿇▸f◂࿇࿇▹oops◃࿇ᐊ龘༒ B") = ([], S "A  B") := by decide

/- ============ Decomposition lemmas for the match search ============ -/

theorem stripPre_eq_some {pat : List Char} :
    ∀ {s r : List Char}, stripPre pat s = some r ↔ s = pat ++ r := by
  induction pat with
  | nil => intro s r; simp [stripPre]
  | cons p ps ih =>
    intro s r
    cases s with
    | nil => simp [stripPre]
    | cons c cs =>
      by_cases hpc : p = c
      · subst hpc
        simp [stripPre, ih]
      · simp [stripPre, hpc]
        intro h
        exact absurd h.symm hpc

/-- Every character of w is JS whitespace. -/
def allWs (w : List Char) : Prop := ∀ c ∈ w, isJsWs c = true

/-- The first character (if any) is not JS whitespace. -/
def headNotWs : List Char → Prop
  | [] => True
  | c :: _ => isJsWs c = false

theorem dropWs_ws_append {w r : List Char} (hw : allWs w) (hr : headNotWs r) :
    dropWs (w ++ r) = r := by
  induction w with
  | nil =>
    cases r with
    | nil => rfl
    | cons c t =>
      simp only [headNotWs] at hr
      simp [dropWs, List.dropWhile_cons, hr]
  | cons c w ih =>
    have hc : isJsWs c = true := hw c (List.mem_cons_self c w)
    have hw2 : allWs w := fun x hx => hw x (List.mem_cons_of_mem c hx)
    simp only [dropWs, List.cons_append, List.dropWhile_cons, hc, if_true] at ih ⊢
    exact ih hw2

theorem occurs_iff_infix {pat s : List Char} :
    (∃ j, pat <+: s.drop j) ↔ pat <:+: s := by
  constructor
  · rintro ⟨j, hj⟩
    exact hj.isInfix.trans (List.drop_suffix j s).isInfix
  · rintro ⟨u, v, huv⟩
    refine ⟨u.length, ?_⟩
    rw [← huv, List.append_assoc, List.drop_left]
    exact ⟨v, rfl⟩

theorem matchAt_none_of_not_pre {M : Markers} {s : List Char}
    (h : ¬ M.TC_START <+: s) : matchAt M s = none := by
  unfold matchAt
  cases hsp : stripPre M.TC_START s with
  | none => simp
  | some s1 => exact absurd ⟨s1, (stripPre_eq_some.mp hsp).symm⟩ h

/-- Unfolding step of the match search when the head position fails. -/
theorem findMatch_cons_none {M : Markers} {c : Char} {cs : List Char}
    (hm : matchAt M (c :: cs) = none) :
    findMatch M (c :: cs) = (findMatch M cs).map (fun y => (c :: y.1, y.2)) := by
  rw [findMatch, hm]

/-- If the start marker has no occurrence strictly inside A, the
leftmost match of `A ++ s` is the leftmost match of s, shifted. -/
theorem findMatch_prepend {M : Markers} {s : List Char} : ∀ {A : List Char},
    (∀ j, j < A.length → ¬ M.TC_START <+: (A ++ s).drop j) →
    findMatch M (A ++ s) =
      (findMatch M s).map (fun y => (A ++ y.1, y.2)) := by
  intro A
  induction A with
  | nil =>
    intro _
    cases hf : findMatch M s <;> simp [hf]
  | cons c A ih =>
    intro h
    have h0 : ¬ M.TC_START <+: (c :: (A ++ s)) := by simpa using h 0 (by simp)
    have hm := matchAt_none_of_not_pre h0
    have ih2 := ih (fun j hj => by
      simpa using h (j + 1) (by simpa using Nat.succ_lt_succ hj))
    rw [List.cons_append, findMatch_cons_none hm, ih2]
    cases hf : findMatch M s <;> simp [hf]

/-- If the start marker does not occur in s at all, there is no match. -/
theorem findMatch_none_of_no_start {M : Markers} {s : List Char}
    (h : ¬ M.TC_START <:+: s) : findMatch M s = none := by
  induction s with
  | nil => simp [findMatch, matchAt_none_of_not_pre (fun hp => h hp.isInfix)]
  | cons c cs ih =>
    have h1 : ¬ M.TC_START <:+: cs := fun hi => h (hi.trans ⟨[c], [], by simp⟩)
    simp [findMatch, matchAt_none_of_not_pre (fun hp => h hp.isInfix), ih h1]

theorem parseRecF_no_start {M : Markers} {s : List Char}
    (h : ¬ M.TC_START <:+: s) :
    ∀ fuel, parseRecF M fuel s = ([], s) := by
  intro fuel
  cases fuel with
  | zero => rfl
  | succ f => simp [parseRecF, findMatch_none_of_no_start h]

/-- ToolCallDelimiter.parse on marker-free text: no calls, trimmed
input as residual. -/
theorem parse_no_start {M : Markers} {s : List Char}
    (h : ¬ M.TC_START <:+: s) :
    ToolCallDelimiter.parse M s = ([], trimJs s) := by
  simp [ToolCallDelimiter.parse, parseRecF_no_start h]

/- ============ Matching a well-formed region exactly ============ -/

/-- The text of one well-formed marker-delimited tool-call region. -/
def regionStr (M : Markers) (w1 n w2 a w3 : List Char) : List Char :=
  M.TC_START ++ w1 ++ M.NAME_START ++ n ++ M.NAME_END ++ w2 ++
  M.ARGS_START ++ a ++ M.ARGS_END ++ w3 ++ M.TC_END

theorem pre_drop_of_append {pat x y : List Char} {j : Nat}
    (hj : j + pat.length ≤ x.length) (h : pat <+: (x ++ y).drop j) :
    pat <+: x.drop j := by
  rw [List.prefix_iff_eq_take] at h ⊢
  rw [List.drop_append_of_le_length (by omega)] at h
  rw [List.take_append_of_le_length (by simp; omega)] at h
  exact h

theorem findSplitSat_cons_nopre {α : Type} {pat : List Char}
    {p : List Char → Option α} {c : Char} {cs : List Char}
    (h : stripPre pat (c :: cs) = none) :
    findSplitSat pat p (c :: cs) =
      (findSplitSat pat p cs).map (fun ba => (c :: ba.1, ba.2)) := by
  simp only [findSplitSat, h]

theorem findSplitSat_cons_hit {α : Type} {pat : List Char}
    {p : List Char → Option α} {c : Char} {cs rest : List Char} {a : α}
    (h1 : stripPre pat (c :: cs) = some rest) (h2 : p rest = some a) :
    findSplitSat pat p (c :: cs) = some ([], a) := by
  simp only [findSplitSat, h1, h2]

/-- Completeness of the lazy-group search: if the continuation succeeds
right after the first pat occurrence, the search returns that split. -/
theorem findSplitSat_complete {α : Type} {pat : List Char}
    {p : List Char → Option α} {r : List Char} {x : α} (hpat : pat ≠ [])
    (hp : p r = some x) :
    ∀ {b : List Char},
      (∀ j, j < b.length → ¬ pat <+: (b ++ (pat ++ r)).drop j) →
      findSplitSat pat p (b ++ (pat ++ r)) = some (b, x) := by
  intro b
  induction b with
  | nil =>
    intro _
    rcases pat with _ | ⟨pc, pcs⟩
    · exact absurd rfl hpat
    · rw [List.nil_append, List.cons_append]
      exact findSplitSat_cons_hit
        (stripPre_eq_some.mpr (List.cons_append pc pcs r)) hp
  | cons c b ih =>
    intro h
    have h0 : ¬ pat <+: (c :: (b ++ (pat ++ r))) := by
      simpa using h 0 (by simp)
    have hsp : stripPre pat (c :: (b ++ (pat ++ r))) = none := by
      cases hv : stripPre pat (c :: (b ++ (pat ++ r))) with
      | none => rfl
      | some z => exact absurd ⟨z, (stripPre_eq_some.mp hv).symm⟩ h0
    have ih2 := ih (fun j hj => by
      simpa using h (j + 1) (by simpa using Nat.succ_lt_succ hj))
    rw [List.cons_append, findSplitSat_cons_nopre hsp, ih2]
    rfl

/-- An early-occurrence bound inside `b ++ pat` transfers to any
extension `b ++ pat ++ y`. -/
theorem noEarly_extend {pat b : List Char} {y : List Char}
    (h : ∀ j, j < b.length → ¬ pat <+: (b ++ pat).drop j) :
    ∀ j, j < b.length → ¬ pat <+: (b ++ (pat ++ y)).drop j := by
  intro j hj hpre
  refine h j hj (pre_drop_of_append (x := b ++ pat) (y := y) (by simp; omega) ?_)
  simpa [List.append_assoc] using hpre

/-- matchAt consumes exactly a well-formed region.  The hypotheses say:
the decorative whitespace runs really are whitespace, the three literals
that follow a whitespace star begin with a non-whitespace character, the
end markers are nonempty, and the first NAME_END / ARGS_END occurrence
after the name / argument group is the closing one. -/
theorem matchAt_region {M : Markers} {w1 n w2 a w3 tail : List Char}
    (hw1 : allWs w1) (hw2 : allWs w2) (hw3 : allWs w3)
    (hNSne : M.NAME_START ≠ []) (hNS : headNotWs M.NAME_START)
    (hASne : M.ARGS_START ≠ []) (hAS : headNotWs M.ARGS_START)
    (hTEne : M.TC_END ≠ []) (hTE : headNotWs M.TC_END)
    (hNEne : M.NAME_END ≠ []) (hAEne : M.ARGS_END ≠ [])
    (hn : ∀ j, j < n.length → ¬ M.NAME_END <+: (n ++ M.NAME_END).drop j)
    (ha : ∀ j, j < a.length → ¬ M.ARGS_END <+: (a ++ M.ARGS_END).drop j) :
    matchAt M (regionStr M w1 n w2 a w3 ++ tail) = some ((n, a), tail) := by
  have headNotWs_append : ∀ {x y : List Char}, x ≠ [] → headNotWs x →
      headNotWs (x ++ y) := by
    intro x y hne hx
    cases x with
    | nil => exact absurd rfl hne
    | cons u t => exact hx
  -- continuation after ARGS_END
  have hcont2 : stripPre M.TC_END (dropWs (w3 ++ (M.TC_END ++ tail))) = some tail := by
    rw [dropWs_ws_append hw3 (headNotWs_append hTEne hTE)]
    exact stripPre_eq_some.mpr rfl
  -- the args-group search
  have hargs :
      findSplitSat M.ARGS_END (fun r3 => stripPre M.TC_END (dropWs r3))
        (a ++ (M.ARGS_END ++ (w3 ++ (M.TC_END ++ tail)))) =
      some (a, tail) :=
    findSplitSat_complete (p := fun r3 => stripPre M.TC_END (dropWs r3))
      (r := w3 ++ (M.TC_END ++ tail)) hAEne hcont2
      (noEarly_extend ha)
  -- the continuation after NAME_END
  have hcont1 :
      ((stripPre M.ARGS_START (dropWs
          (w2 ++ (M.ARGS_START ++ (a ++ (M.ARGS_END ++ (w3 ++ (M.TC_END ++ tail)))))))).bind fun r2 =>
        findSplitSat M.ARGS_END (fun r3 => stripPre M.TC_END (dropWs r3)) r2) =
      some (a, tail) := by
    rw [dropWs_ws_append hw2 (headNotWs_append hASne hAS),
      stripPre_eq_some.mpr rfl]
    simpa using hargs
  -- the name-group search
  have hname :
      findSplitSat M.NAME_END (fun r =>
        (stripPre M.ARGS_START (dropWs r)).bind fun r2 =>
        findSplitSat M.ARGS_END (fun r3 => stripPre M.TC_END (dropWs r3)) r2)
        (n ++ (M.NAME_END ++ (w2 ++ (M.ARGS_START ++ (a ++ (M.ARGS_END ++ (w3 ++ (M.TC_END ++ tail)))))))) =
      some (n, (a, tail)) :=
    findSplitSat_complete
      (r := w2 ++ (M.ARGS_START ++ (a ++ (M.ARGS_END ++ (w3 ++ (M.TC_END ++ tail))))))
      hNEne hcont1 (noEarly_extend hn)
  unfold matchAt
  rw [show regionStr M w1 n w2 a w3 ++ tail =
      M.TC_START ++ (w1 ++ (M.NAME_START ++ (n ++ (M.NAME_END ++ (w2 ++
        (M.ARGS_START ++ (a ++ (M.ARGS_END ++ (w3 ++ (M.TC_END ++ tail)))))))))) by
    simp [regionStr, List.append_assoc]]
  rw [stripPre_eq_some.mpr rfl, Option.some_bind]
  rw [dropWs_ws_append hw1 (headNotWs_append hNSne hNS)]
  rw [stripPre_eq_some.mpr rfl, Option.some_bind]
  rw [hname]
  rfl

theorem findMatch_head_hit {M : Markers} {s : List Char}
    {x : (List Char × List Char) × List Char}
    (hne : s ≠ []) (hm : matchAt M s = some x) :
    findMatch M s = some ([], x.1, x.2) := by
  cases s with
  | nil => exact absurd rfl hne
  | cons c cs => simp [findMatch, hm]

/-- Shape facts about a marker set that the matcher relies on; they hold
for every generated marker set. -/
def markerShape (M : Markers) : Prop :=
  M.TC_START ≠ [] ∧
  M.NAME_START ≠ [] ∧ headNotWs M.NAME_START ∧
  M.ARGS_START ≠ [] ∧ headNotWs M.ARGS_START ∧
  M.TC_END ≠ [] ∧ headNotWs M.TC_END ∧
  M.NAME_END ≠ [] ∧ M.ARGS_END ≠ []

instance : DecidablePred headNotWs := fun r =>
  match r with
  | [] => isTrue trivial
  | c :: _ => (inferInstance : Decidable (isJsWs c = false))

instance (M : Markers) : Decidable (markerShape M) := by
  unfold markerShape; infer_instance

/-- Well-formedness of one region's pieces: the whitespace runs are
whitespace and the name/argument groups close at their first end
marker. -/
def regionWF (M : Markers) (w1 n w2 a w3 : List Char) : Prop :=
  allWs w1 ∧ allWs w2 ∧ allWs w3 ∧
  (∀ j, j < n.length → ¬ M.NAME_END <+: (n ++ M.NAME_END).drop j) ∧
  (∀ j, j < a.length → ¬ M.ARGS_END <+: (a ++ M.ARGS_END).drop j)

instance (M : Markers) (w1 n w2 a w3 : List Char) :
    Decidable (regionWF M w1 n w2 a w3) := by
  unfold regionWF allWs; infer_instance

theorem matchAt_region_wf {M : Markers} {w1 n w2 a w3 tail : List Char}
    (hM : markerShape M) (hR : regionWF M w1 n w2 a w3) :
    matchAt M (regionStr M w1 n w2 a w3 ++ tail) = some ((n, a), tail) := by
  obtain ⟨_, hNSne, hNS, hASne, hAS, hTEne, hTE, hNEne, hAEne⟩ := hM
  obtain ⟨hw1, hw2, hw3, hn, ha⟩ := hR
  exact matchAt_region hw1 hw2 hw3 hNSne hNS hASne hAS hTEne hTE hNEne hAEne hn ha

theorem regionStr_append_ne_nil {M : Markers} {w1 n w2 a w3 B : List Char}
    (hTSne : M.TC_START ≠ []) : regionStr M w1 n w2 a w3 ++ B ≠ [] := by
  intro h
  simp only [regionStr, List.append_assoc, List.append_eq_nil] at h
  exact hTSne h.1

/-- One unfolding step of the exec loop over a well-formed region. -/
theorem parseRecF_region {M : Markers} {w1 n w2 a w3 A B : List Char} {fuel : Nat}
    (hM : markerShape M) (hR : regionWF M w1 n w2 a w3)
    (hA : ∀ j, j < A.length →
      ¬ M.TC_START <+: (A ++ (regionStr M w1 n w2 a w3 ++ B)).drop j) :
    parseRecF M (fuel + 1) (A ++ (regionStr M w1 n w2 a w3 ++ B)) =
      ((n, a) :: (parseRecF M fuel B).1, A ++ (parseRecF M fuel B).2) := by
  have hfm : findMatch M (A ++ (regionStr M w1 n w2 a w3 ++ B)) =
      some (A, (n, a), B) := by
    rw [findMatch_prepend hA,
      findMatch_head_hit (regionStr_append_ne_nil hM.1) (matchAt_region_wf hM hR)]
    simp
  simp only [parseRecF, hfm]

/-- The one-shot parser on text containing exactly one well-formed
region: the region is removed from the residual; a call is produced
exactly when its trimmed argument text is valid JSON. -/
theorem parse_region {M : Markers} {w1 n w2 a w3 A B : List Char}
    (hM : markerShape M) (hR : regionWF M w1 n w2 a w3)
    (hA : ∀ j, j < A.length →
      ¬ M.TC_START <+: (A ++ (regionStr M w1 n w2 a w3 ++ B)).drop j)
    (hB : ¬ M.TC_START <:+: B) :
    ToolCallDelimiter.parse M (A ++ (regionStr M w1 n w2 a w3 ++ B)) =
      ((if jsonValidB (trimJs a) then [⟨0, trimJs n, trimJs a⟩] else []),
       trimJs (A ++ B)) := by
  unfold ToolCallDelimiter.parse
  rw [show (A ++ (regionStr M w1 n w2 a w3 ++ B)).length + 1 =
      (A ++ (regionStr M w1 n w2 a w3 ++ B)).length + 1 from rfl]
  rw [parseRecF_region hM hR hA, parseRecF_no_start hB]
  by_cases hv : jsonValidB (trimJs a) = true
  · simp [hv, List.filter, List.enum]
  · simp only [Bool.not_eq_true] at hv
    simp [hv, List.filter]

/-- C6 as stated: for every input text, a second run of parse on the
first run's residual finds no further tool calls. -/
def claimC6 : Prop := ∀ (M : Markers) (text : List Char),
  (ToolCallDelimiter.parse M (ToolCallDelimiter.parse M text).2).1 = []

/-- Removing a matched region can concatenate its surroundings into a
new well-formed region: a start marker directly before the matched
region plus marker material directly after it. -/
def c6text : List Char :=
  S "༒龘ᐅ༒龘ᐅ࿇▸f◂࿇࿇▹\x7b\x7d◃࿇ᐊ龘༒࿇▸g◂࿇࿇▹\x7b\x7d◃࿇ᐊ龘༒"

example : (ToolCallDelimiter.parse M0 c6text).1.length = 1 := by decide
example : (ToolCallDelimiter.parse M0 c6text).2 =
  S "༒龘ᐅ࿇▸g◂࿇࿇▹\x7b\x7d◃࿇ᐊ龘༒" := by decide
example : (ToolCallDelimiter.parse M0
  (ToolCallDelimiter.parse M0 c6text).2).1.length = 1 := by decide

/-- C6, counterexample: parse is not idempotent.  On `c6text` the first
run matches and removes the middle region; the removal concatenates the
stray start marker before it with the marker material after it into a
new well-formed region, so the second run extracts one more call. -/
theorem c6_counterexample : ¬ claimC6 := fun h => by
  have h2 := h M0 c6text
  have h3 : (ToolCallDelimiter.parse M0
      (ToolCallDelimiter.parse M0 c6text).2).1.length = 1 := by decide
  rw [h2] at h3
  exact absurd h3 (by decide)

/-- C6 (amended): a second run of parse on the first run's residual
yields zero additional tool calls, provided the residual contains no
occurrence of the call-start marker (removing a matched region can
otherwise splice together a new marker-delimited region out of its
surroundings). -/
theorem c6_amended : ∀ (M : Markers) (text : List Char),
    ¬ M.TC_START <:+: (ToolCallDelimiter.parse M text).2 →
    (ToolCallDelimiter.parse M (ToolCallDelimiter.parse M text).2).1 = [] := by
  intro M text h
  simp [parse_no_start h]

/-- Witness for c6_amended: one complete block after ordinary text; the
residual "hi" holds no start marker and re-parses to nothing. -/
theorem c6_amended_witness :
    (¬ M0.TC_START <:+:
      (ToolCallDelimiter.parse M0 (S "hi ༒龘ᐅ࿇▸f◂࿇࿇▹\x7b\x7d◃࿇ᐊ龘༒")).2) ∧
    (ToolCallDelimiter.parse M0
      (ToolCallDelimiter.parse M0 (S "hi ༒龘ᐅ࿇▸f◂࿇࿇▹\x7b\x7d◃࿇ᐊ龘༒")).2).1 = [] :=
  ⟨by decide, c6_amended M0 _ (by decide)⟩

/-- C7: (a) a region matching the full marker grammar whose trimmed
argument text is not valid JSON is removed from the residual but
produces no tool call (and parse, a total function, raises no error);
(b) on text in which no marker token occurs, parse returns no calls and
the trimmed input. -/
theorem c7_invalid_args_dropped_and_plain_text :
    (∀ (M : Markers) (w1 n w2 a w3 A B : List Char),
      markerShape M → regionWF M w1 n w2 a w3 →
      (∀ j, j < A.length →
        ¬ M.TC_START <+: (A ++ (regionStr M w1 n w2 a w3 ++ B)).drop j) →
      ¬ M.TC_START <:+: B →
      jsonValidB (trimJs a) = false →
      ToolCallDelimiter.parse M (A ++ (regionStr M w1 n w2 a w3 ++ B)) =
        ([], trimJs (A ++ B))) ∧
    (∀ (M : Markers) (s : List Char),
      (∀ t ∈ tokensOf M, ¬ t <:+: s) →
      ToolCallDelimiter.parse M s = ([], trimJs s)) := by
  constructor
  · intro M w1 n w2 a w3 A B hM hR hA hB hv
    rw [parse_region hM hR hA hB, hv]
    simp
  · intro M s h
    exact parse_no_start (h M.TC_START (by simp [tokensOf]))

/-- Witness for C7: part (a) at a concrete region with argument text
"oops", part (b) at plain text. -/
theorem c7_witness :
    (ToolCallDelimiter.parse M0
      (S "A " ++ (regionStr M0 [] (S "f") [] (S "oops") [] ++ S " B")) =
      ([], trimJs (S "A " ++ S " B"))) ∧
    (ToolCallDelimiter.parse M0 (S "no markers here") =
      ([], trimJs (S "no markers here"))) :=
  ⟨c7_invalid_args_dropped_and_plain_text.1 M0 [] (S "f") [] (S "oops") []
      (S "A ") (S " B") (by decide) (by decide) (by decide) (by decide) (by decide),
   c7_invalid_args_dropped_and_plain_text.2 M0 (S "no markers here") (by decide)⟩

/- ============ Json get/set algebra ============ -/

theorem Json.obj_of_get_some {o : Json} {k : List Char} {v : Json}
    (h : o.get k = some v) : ∃ kvs, o = Json.obj kvs := by
  cases o with
  | obj kvs => exact ⟨kvs, rfl⟩
  | null => simp [Json.get] at h
  | bool b => simp [Json.get] at h
  | num l => simp [Json.get] at h
  | str s => simp [Json.get] at h
  | arr xs => simp [Json.get] at h

theorem Json.set_obj_is_obj {kvs : List (List Char × Json)} {k : List Char}
    {v : Json} : ∃ kvs2, (Json.obj kvs).set k v = Json.obj kvs2 := by
  by_cases h : (kvs.find? (fun kv => kv.1 == k)).isSome = true
  · exact ⟨_, by simp only [Json.set]; rw [if_pos h]⟩
  · exact ⟨_, by simp only [Json.set]; rw [if_neg h]⟩

theorem Json.set_is_obj {o : Json} {k : List Char} {v : Json}
    (ho : ∃ kvs, o = Json.obj kvs) : ∃ kvs2, o.set k v = Json.obj kvs2 := by
  obtain ⟨kvs, rfl⟩ := ho
  exact Json.set_obj_is_obj

theorem Json.get_set_eq {o : Json} {k : List Char} {v : Json}
    (ho : ∃ kvs, o = Json.obj kvs) : (o.set k v).get k = some v := by
  obtain ⟨kvs, rfl⟩ := ho
  by_cases h : (kvs.find? (fun kv => kv.1 == k)).isSome = true
  · simp only [Json.set]
    rw [if_pos h]
    obtain ⟨kv0, hf⟩ := Option.isSome_iff_exists.mp h
    simp only [Json.get]
    rw [List.find?_map]
    have hcomp : ((fun (kv : List Char × Json) => kv.1 == k) ∘
        (fun kv => if kv.1 == k then (kv.1, v) else kv)) =
        (fun (kv : List Char × Json) => kv.1 == k) := by
      funext kv
      by_cases hk : kv.1 = k <;> simp [hk]
    rw [hcomp, hf]
    have hk0 := List.find?_some (p := fun (kv : List Char × Json) => kv.1 == k) hf
    simp only [beq_iff_eq] at hk0
    simp [hk0]
  · simp only [Json.set]
    rw [if_neg h]
    simp only [Json.get]
    rw [List.find?_append]
    have hnone : kvs.find? (fun kv => kv.1 == k) = none := by
      cases hv : kvs.find? (fun kv => kv.1 == k) with
      | none => rfl
      | some z => exact absurd (by simp [hv]) h
    simp [hnone, List.find?]

theorem Json.get_set_ne {o : Json} {k kp : List Char} {v : Json}
    (hne : k ≠ kp) : (o.set k v).get kp = o.get kp := by
  cases o with
  | obj kvs =>
    by_cases h : (kvs.find? (fun kv => kv.1 == k)).isSome = true
    · simp only [Json.set]
      rw [if_pos h]
      simp only [Json.get]
      rw [List.find?_map]
      have hcomp : ((fun (kv : List Char × Json) => kv.1 == kp) ∘
          (fun kv => if kv.1 == k then (kv.1, v) else kv)) =
          (fun (kv : List Char × Json) => kv.1 == kp) := by
        funext kv
        by_cases hk : kv.1 = k <;> simp [hk]
      rw [hcomp]
      cases hv : kvs.find? (fun kv => kv.1 == kp) with
      | none => simp
      | some kv1 =>
        have hk1 := List.find?_some (p := fun (kv : List Char × Json) => kv.1 == kp) hv
        simp only [beq_iff_eq] at hk1
        have hk1k : ¬ kv1.1 = k := by
          rw [hk1]
          exact fun hc => hne hc.symm
        simp [hk1k]
    · simp only [Json.set]
      rw [if_neg h]
      simp only [Json.get]
      rw [List.find?_append]
      have hbe : (k == kp) = false := by
        simp only [beq_eq_false_iff_ne, ne_eq]
        exact hne
      have hlast : List.find? (fun (kv : List Char × Json) => kv.1 == kp) [(k, v)] = none := by
        simp [List.find?, hbe]
      rw [hlast]
      cases kvs.find? (fun kv => kv.1 == kp) <;> simp
  | null => rfl
  | bool b => rfl
  | num l => rfl
  | str s => rfl
  | arr xs => rfl

/- ===== Non-stream response finisher (src/index.js 815-821) ===== -/

/-- The JSON shape of one extracted call as pushed by parse
(src/index.js 202-206); the wall-clock part of the id is modelled out. -/
def toolCallJson (tc : ToolCall) : Json :=
  Json.obj [(S "id", Json.str (S "call_" ++ (Nat.repr tc.id).data)),
            (S "type", Json.str (S "function")),
            (S "function", Json.obj [(S "name", Json.str tc.name),
                                     (S "arguments", Json.str tc.arguments)])]

/-- `data?.choices?.[0]`. -/
def choice0 (data : Json) : Option Json :=
  (data.get (S "choices")).bind Json.head?

/-- `data?.choices?.[0]?.message`. -/
def primaryMessage (data : Json) : Option Json :=
  (choice0 data).bind (fun c => c.get (S "message"))

/-- `data?.choices?.[0]?.message?.content` when it is a string (the
response shape carries string-or-null content). -/
def primaryContentStr (data : Json) : Option (List Char) :=
  match (primaryMessage data).bind (fun m => m.get (S "content")) with
  | some (Json.str s) => some s
  | _ => none

/-- In-place mutation of `data.choices[0]`, functionally. -/
def updateChoice0 (data : Json) (f : Json → Json) : Json :=
  match data.get (S "choices") with
  | some (Json.arr (c0 :: rest)) => data.set (S "choices") (Json.arr (f c0 :: rest))
  | _ => data

/-- The non-stream branch of handleRequest (src/index.js 815-821): when
the request had tools and the primary message content is a nonempty
string, parse it; if calls were found, attach them, replace the content
by the residual (or null when the residual is empty), and set
finish_reason to "tool_calls"; otherwise the body is unchanged. -/
def finishNonStream (M : Markers) (hasTools : Bool) (data : Json) : Json :=
  match hasTools, primaryContentStr data with
  | true, some s =>
    if s.isEmpty then data
    else
      let pc := ToolCallDelimiter.parse M s
      if pc.1.isEmpty then data
      else
        updateChoice0 data (fun c0 =>
          let m := (c0.get (S "message")).getD (Json.obj [])
          let m2 := ((m.set (S "tool_calls") (Json.arr (pc.1.map toolCallJson))).set
            (S "content") (if pc.2.isEmpty then Json.null else Json.str pc.2))
          (c0.set (S "message") m2).set (S "finish_reason") (Json.str (S "tool_calls")))
  | _, _ => data

theorem primaryContentStr_some {data : Json} {s : List Char}
    (h : primaryContentStr data = some s) :
    ∃ c0 rest m, data.get (S "choices") = some (Json.arr (c0 :: rest)) ∧
      c0.get (S "message") = some m ∧ m.get (S "content") = some (Json.str s) := by
  unfold primaryContentStr primaryMessage choice0 at h
  cases hjc : data.get (S "choices") with
  | none => rw [hjc] at h; simp at h
  | some j =>
    rw [hjc] at h
    cases j with
    | arr xs =>
      cases xs with
      | nil => simp [Json.head?] at h
      | cons c0 rest =>
        simp only [Json.head?, Option.some_bind] at h
        cases hm : c0.get (S "message") with
        | none => rw [hm] at h; simp at h
        | some m =>
          rw [hm] at h
          simp only [Option.some_bind] at h
          cases hct : m.get (S "content") with
          | none => rw [hct] at h; simp at h
          | some v =>
            rw [hct] at h
            cases v <;> simp at h
            subst h
            exact ⟨c0, rest, m, rfl, hm, hct⟩
    | null => simp [Json.head?] at h
    | bool b => simp [Json.head?] at h
    | num l => simp [Json.head?] at h
    | str t => simp [Json.head?] at h
    | obj kvs => simp [Json.head?] at h

/-- C5: on a tools-enabled request whose primary message content is a
nonempty string, the finisher parses it; if calls were found it attaches
them as structured tool calls, replaces the content by the residual
(null — "no content" — when the residual is empty) and sets the
completion reason to "tool_calls"; in every other case the body is
returned unchanged. -/
theorem c5_nonstream_finisher :
    ∀ (M : Markers) (hasTools : Bool) (data : Json),
    ((hasTools = false ∨ primaryContentStr data = none ∨
        primaryContentStr data = some []) →
      finishNonStream M hasTools data = data) ∧
    (∀ s, hasTools = true → primaryContentStr data = some s → s ≠ [] →
      (((ToolCallDelimiter.parse M s).1 = [] →
        finishNonStream M hasTools data = data) ∧
      ((ToolCallDelimiter.parse M s).1 ≠ [] →
        (primaryMessage (finishNonStream M hasTools data)).bind
            (fun m => m.get (S "tool_calls")) =
          some (Json.arr ((ToolCallDelimiter.parse M s).1.map toolCallJson)) ∧
        (primaryMessage (finishNonStream M hasTools data)).bind
            (fun m => m.get (S "content")) =
          some (if (ToolCallDelimiter.parse M s).2 = [] then Json.null
            else Json.str (ToolCallDelimiter.parse M s).2) ∧
        (choice0 (finishNonStream M hasTools data)).bind
            (fun c => c.get (S "finish_reason")) =
          some (Json.str (S "tool_calls"))))) := by
  intro M ht data
  constructor
  · rintro (rfl | hn | he)
    · cases hc : primaryContentStr data <;> simp [finishNonStream, hc]
    · cases ht <;> simp [finishNonStream, hn]
    · cases ht <;> simp [finishNonStream, he]
  · intro s hht hcs hsne
    subst hht
    have hse : s.isEmpty = false := by
      cases s with
      | nil => exact absurd rfl hsne
      | cons c t => rfl
    constructor
    · intro hpc
      simp [finishNonStream, hcs, hse, hpc]
    · intro hpc
      have hpe : (ToolCallDelimiter.parse M s).1.isEmpty = false := by
        cases hv : (ToolCallDelimiter.parse M s).1 with
        | nil => exact absurd hv hpc
        | cons x xs => rfl
      obtain ⟨c0, rest, m, hjc, hm, hct⟩ := primaryContentStr_some hcs
      have hdataobj : ∃ kvs, data = Json.obj kvs := Json.obj_of_get_some hjc
      have hc0obj : ∃ kvs, c0 = Json.obj kvs := Json.obj_of_get_some hm
      have hmobj : ∃ kvs, m = Json.obj kvs := Json.obj_of_get_some hct
      have hr : finishNonStream M true data =
          data.set (S "choices") (Json.arr (
            ((c0.set (S "message")
              ((m.set (S "tool_calls")
                  (Json.arr ((ToolCallDelimiter.parse M s).1.map toolCallJson))).set
                (S "content")
                (if (ToolCallDelimiter.parse M s).2.isEmpty then Json.null
                 else Json.str (ToolCallDelimiter.parse M s).2))).set
              (S "finish_reason") (Json.str (S "tool_calls"))) :: rest)) := by
        simp only [finishNonStream, hcs, hse, Bool.false_eq_true, if_false, hpe,
          updateChoice0, hjc, hm, Option.getD_some]
      have hch : choice0 (finishNonStream M true data) =
          some ((c0.set (S "message")
              ((m.set (S "tool_calls")
                  (Json.arr ((ToolCallDelimiter.parse M s).1.map toolCallJson))).set
                (S "content")
                (if (ToolCallDelimiter.parse M s).2.isEmpty then Json.null
                 else Json.str (ToolCallDelimiter.parse M s).2))).set
              (S "finish_reason") (Json.str (S "tool_calls"))) := by
        rw [hr]
        unfold choice0
        rw [Json.get_set_eq hdataobj]
        simp [Json.head?]
      have hmsg : primaryMessage (finishNonStream M true data) =
          some ((m.set (S "tool_calls")
              (Json.arr ((ToolCallDelimiter.parse M s).1.map toolCallJson))).set
            (S "content")
            (if (ToolCallDelimiter.parse M s).2.isEmpty then Json.null
             else Json.str (ToolCallDelimiter.parse M s).2)) := by
        unfold primaryMessage
        rw [hch]
        simp only [Option.some_bind]
        rw [Json.get_set_ne (by decide), Json.get_set_eq hc0obj]
      refine ⟨?_, ?_, ?_⟩
      · rw [hmsg]
        simp only [Option.some_bind]
        rw [Json.get_set_ne (by decide),
          Json.get_set_eq hmobj]
      · rw [hmsg]
        simp only [Option.some_bind]
        rw [Json.get_set_eq (Json.set_is_obj hmobj)]
        by_cases hres : (ToolCallDelimiter.parse M s).2 = []
        · simp [hres]
        · have hrese : (ToolCallDelimiter.parse M s).2.isEmpty = false := by
            cases hv : (ToolCallDelimiter.parse M s).2 with
            | nil => exact absurd hv hres
            | cons x xs => rfl
          simp [hres, hrese]
      · rw [hch]
        simp only [Option.some_bind]
        rw [Json.get_set_eq (Json.set_is_obj hc0obj)]

/-- A concrete non-stream response body whose assistant message carries
text followed by one tool-call block. -/
def c5data : Json :=
  Json.obj [(S "id", Json.str (S "chatcmpl-1")),
    (S "choices", Json.arr [Json.obj [
      (S "message", Json.obj [(S "role", Json.str (S "assistant")),
        (S "content", Json.str (S "ok ༒龘ᐅ࿇▸f◂࿇࿇▹\x7b\x7d◃࿇ᐊ龘༒"))]),
      (S "finish_reason", Json.str (S "stop"))]])]

/-- Witness for C5 at c5data. -/
theorem c5_witness :
    (primaryMessage (finishNonStream M0 true c5data)).bind
        (fun m => m.get (S "tool_calls")) =
      some (Json.arr ((ToolCallDelimiter.parse M0
        (S "ok ༒龘ᐅ࿇▸f◂࿇࿇▹\x7b\x7d◃࿇ᐊ龘༒")).1.map toolCallJson)) ∧
    (primaryMessage (finishNonStream M0 true c5data)).bind
        (fun m => m.get (S "content")) =
      some (if (ToolCallDelimiter.parse M0
          (S "ok ༒龘ᐅ࿇▸f◂࿇࿇▹\x7b\x7d◃࿇ᐊ龘༒")).2 = [] then Json.null
        else Json.str (ToolCallDelimiter.parse M0
          (S "ok ༒龘ᐅ࿇▸f◂࿇࿇▹\x7b\x7d◃࿇ᐊ龘༒")).2) ∧
    (choice0 (finishNonStream M0 true c5data)).bind
        (fun c => c.get (S "finish_reason")) =
      some (Json.str (S "tool_calls")) :=
  ((c5_nonstream_finisher M0 true c5data).2
    (S "ok ༒龘ᐅ࿇▸f◂࿇࿇▹\x7b\x7d◃࿇ᐊ龘༒") rfl (by decide) (by decide)).2
    (by decide)

/- ===== Streaming transformer (src/index.js 383-680) ===== -/

/-- findPartialMatchEndIndex (src/index.js 475-484): scan i from
marker.length-1 down to 1; first i with text ending in marker[0..i)
gives cut text.length - i, else text.length. -/
def findPartialGo (text marker : List Char) : Nat → Nat
  | 0 => text.length
  | i + 1 =>
    if (marker.take (i + 1)).isSuffixOf text then text.length - (i + 1)
    else findPartialGo text marker i

def findPartialMatchEndIndex (text marker : List Char) : Nat :=
  findPartialGo text marker (marker.length - 1)

/-- String.indexOf as a position search for a sublist. -/
def indexOfSub (marker : List Char) : List Char → Option Nat
  | [] => if marker.isEmpty then some 0 else none
  | c :: cs =>
    if marker.isPrefixOf (c :: cs) then some 0
    else (indexOfSub marker cs).map (· + 1)

/-- splitByMarker (src/index.js 487-491). -/
def splitByMarker (text marker : List Char) : Option (List Char × List Char) :=
  (indexOfSub marker text).map (fun i => (text.take i, text.drop i))

/-- The SSE frame separator (a blank line). -/
def nn : List Char := ['\n', '\n']

/-- Split off everything before the first occurrence of pat, and the
remainder after pat. -/
def splitOnFirst (pat : List Char) : List Char → Option (List Char × List Char)
  | [] => none
  | c :: cs =>
    if pat.isPrefixOf (c :: cs) then some ([], (c :: cs).drop pat.length)
    else (splitOnFirst pat cs).map (fun ba => (c :: ba.1, ba.2))

/-- SseEventParser.pushText's extraction loop: complete frames split at
each blank line, the incomplete trailing part kept as the buffer.  Every
step consumes at least two characters, so length + 1 fuel suffices. -/
def extractEventsF : Nat → List Char → List (List Char) × List Char
  | 0, buf => ([], buf)
  | fuel + 1, buf =>
    match splitOnFirst nn buf with
    | none => ([], buf)
    | some (e, rest) =>
      let er := extractEventsF fuel rest
      (e :: er.1, er.2)

def sseExtract (s : List Char) : List (List Char) × List Char :=
  extractEventsF (s.length + 1) s

/-- JS String.prototype.split('\n'). -/
def splitLines : List Char → List (List Char)
  | [] => [[]]
  | c :: cs =>
    if c = '\n' then [] :: splitLines cs
    else
      match splitLines cs with
      | [] => [[c]]
      | l :: ls => (c :: l) :: ls

/-- SseEventParser.extractDataLines (src/index.js 411-421). -/
def extractDataLines (rawEvent : List Char) : List (List Char) :=
  ((splitLines rawEvent).filter (fun l => (S "data:").isPrefixOf l)).map
    (fun l => trimStartJs (l.drop 5))

/-- SseEventParser.isDoneEvent (src/index.js 423-426). -/
def isDoneEvent (rawEvent : List Char) : Bool :=
  match extractDataLines rawEvent with
  | [d] => d == S "[DONE]"
  | _ => false

/-- Array.prototype.join('\n'). -/
def joinNl : List (List Char) → List Char
  | [] => []
  | [l] => l
  | l :: r :: rs => l ++ '\n' :: joinNl (r :: rs)

/-- One complete SSE frame as the transformer sees it: the sentinel, a
decoded JSON payload, or unparsable raw text (forwarded as is). -/
inductive Frame where
  | done : Frame
  | raw (rawEvent : List Char) : Frame
  | json (v : Json) : Frame

/-- How the transform body classifies one complete frame (src/index.js
519, 556-562): the sentinel test first, then parseJsonFromEvent; no
data lines or a JSON.parse failure mean raw passthrough. -/
def classifyFrame (rawEvent : List Char) : Frame :=
  if isDoneEvent rawEvent then Frame.done
  else
    match extractDataLines rawEvent with
    | [] => Frame.raw rawEvent
    | datas =>
      match jsonParse (joinNl datas) with
      | some v => Frame.json v
      | none => Frame.raw rawEvent

/-- TranscoderState (src/index.js 468-473). -/
structure TState where
  pendingText : List Char
  bufferingTool : Bool
  toolBuffer : List Char
  lastEnvelope : Option Json

def initTState : TState := ⟨[], false, [], none⟩

/-- One push to the output side. -/
inductive Out where
  | done : Out
  | raw (s : List Char) : Out
  | json (v : Json) : Out

/-- The wire text of one pushed output. -/
def encodeOut : Out → List Char
  | Out.done => S "data: [DONE]\n\n"
  | Out.raw s => s ++ nn
  | Out.json v => S "data: " ++ stringify v ++ nn

/-- JS falsiness of a decoded JSON value. -/
def jsFalsy : Json → Bool
  | Json.null => true
  | Json.bool b => !b
  | Json.num l => l == S "0"
  | Json.str s => s.isEmpty
  | _ => false

/-- `lastEnvelope` tested for truthiness. -/
def envOk (o : Option Json) : Option Json :=
  o.bind (fun v => if jsFalsy v then none else some v)

/-- `c0.delta = c0.delta || {}; c0.delta.content = text`.  (When c0 is
not an object the JS code would throw at the unguarded call sites and
skip patching at the guarded one; both are modelled as leaving the
event unpatched, and every envelope appearing in a theorem is an
object.) -/
def setDeltaContent (c0 : Json) (text : List Char) : Json :=
  let delta := match c0.get (S "delta") with
    | some d => if jsFalsy d then Json.obj [] else d
    | none => Json.obj []
  c0.set (S "delta") (delta.set (S "content") (Json.str text))

/-- Rewrite choices[0].delta.content of an envelope. -/
def patchContent (env : Json) (text : List Char) : Json :=
  updateChoice0 env (fun c0 => setDeltaContent c0 text)

/-- Delete choices[0].delta.content, keeping every other delta field
(src/index.js 590-594 and the analogous sites). -/
def removeDeltaContent (v : Json) : Json :=
  updateChoice0 v (fun c0 =>
    match c0.get (S "delta") with
    | some (Json.obj kvs) => c0.set (S "delta") ((Json.obj kvs).del (S "content"))
    | _ => c0)

/-- One entry of the injected delta.tool_calls list:
`{ index: i, ...tc }` (src/index.js 503). -/
def indexedToolCallJson (i : Nat) (tc : ToolCall) : Json :=
  Json.obj [(S "index", Json.num (Nat.repr i).data),
            (S "id", Json.str (S "call_" ++ (Nat.repr tc.id).data)),
            (S "type", Json.str (S "function")),
            (S "function", Json.obj [(S "name", Json.str tc.name),
                                     (S "arguments", Json.str tc.arguments)])]

/-- injectToolCallsEvent (src/index.js 493-510). -/
def injectToolCallsEvent (baseEvent : Json) (toolCalls : List ToolCall) : Json :=
  let evt :=
    match baseEvent.get (S "choices") with
    | some (Json.arr (_ :: _)) => baseEvent
    | _ => baseEvent.set (S "choices") (Json.arr [Json.obj
        [(S "index", Json.num (S "0")), (S "delta", Json.obj []),
         (S "finish_reason", Json.null)]])
  match evt.get (S "choices") with
  | some (Json.arr (c0 :: rest)) =>
    let delta := match c0.get (S "delta") with
      | some (Json.obj kvs) => Json.obj kvs
      | _ => Json.obj []
    let delta2 := delta.set (S "tool_calls")
      (Json.arr (toolCalls.enum.map (fun p => indexedToolCallJson p.1 p.2)))
    let c02 := (c0.set (S "delta") delta2).set (S "finish_reason") Json.null
    evt.set (S "choices") (Json.arr (c02 :: rest))
  | _ => evt

/-- The transform body for one complete frame (src/index.js 517-646).
Note: the [DONE] branch does not reset the state. -/
def processFrame (M : Markers) (st : TState) : Frame → TState × List Out
  | Frame.done =>
    let outs :=
      if !st.toolBuffer.isEmpty then
        let pc := ToolCallDelimiter.parse M st.toolBuffer
        (match envOk st.lastEnvelope with
          | some env =>
            if !pc.2.isEmpty then [Out.json (patchContent env pc.2)] else []
          | none => []) ++
        (match envOk st.lastEnvelope with
          | some env =>
            if pc.1.length > 0 then [Out.json (injectToolCallsEvent env pc.1)] else []
          | none => [])
      else
        match envOk st.lastEnvelope with
        | some env =>
          if !st.pendingText.isEmpty then [Out.json (patchContent env st.pendingText)]
          else []
        | none => []
    (st, outs ++ [Out.done])
  | Frame.raw r => (st, [Out.raw r])
  | Frame.json v =>
    let st2 := { st with lastEnvelope := some v }
    match v.get (S "choices") with
    | some (Json.arr (c0 :: _)) =>
      let content : Option (List Char) :=
        match (c0.get (S "delta")).bind (fun d => d.get (S "content")) with
        | some (Json.str s) => some s
        | _ => none
      match content with
      | none => (st2, [Out.json v])
      | some s =>
        if s.isEmpty then (st2, [Out.json v])
        else if st2.bufferingTool then
          ({ st2 with toolBuffer := st2.toolBuffer ++ s },
           [Out.json (removeDeltaContent v)])
        else
          let combined := st2.pendingText ++ s
          match splitByMarker combined M.TC_START with
          | some (before, after) =>
            let st3 : TState := ⟨[], true, after, st2.lastEnvelope⟩
            (st3,
             [if !before.isEmpty then Out.json (patchContent v before)
              else Out.json (removeDeltaContent v)])
          | none =>
            let safeEnd := findPartialMatchEndIndex combined M.TC_START
            (({ st2 with pendingText := combined.drop safeEnd }),
             [if !(combined.take safeEnd).isEmpty
              then Out.json (patchContent v (combined.take safeEnd))
              else Out.json (removeDeltaContent v)])
    | _ => (st2, [Out.json v])

/-- The Transform's flush callback (src/index.js 651-678), run when the
upstream byte stream ends — also after a [DONE] frame was handled,
because handling [DONE] does not reset the state. -/
def flushOuts (M : Markers) (st : TState) : List Out :=
  (match envOk st.lastEnvelope with
    | some env =>
      if !st.pendingText.isEmpty && !st.bufferingTool
      then [Out.json (patchContent env st.pendingText)] else []
    | none => []) ++
  (match envOk st.lastEnvelope with
    | some env =>
      if !st.toolBuffer.isEmpty then
        let pc := ToolCallDelimiter.parse M st.toolBuffer
        (if !pc.2.isEmpty then [Out.json (patchContent env pc.2)] else []) ++
        (if pc.1.length > 0 then [Out.json (injectToolCallsEvent env pc.1)] else [])
      else []
    | none => [])

/-- Fold the per-frame body over a list of frames. -/
def foldFrames (M : Markers) (frames : List Frame) (st : TState) :
    TState × List Out :=
  frames.foldl (fun acc f =>
    let r := processFrame M acc.1 f
    (r.1, acc.2 ++ r.2)) (st, [])

/-- Run the transformer over a list of already-split frames, including
the final flush. -/
def runFrames (M : Markers) (frames : List Frame) : List Out :=
  let r := foldFrames M frames initTState
  r.2 ++ flushOuts M r.1

/-- The textual state: SSE reassembly buffer plus transcoder state. -/
structure AState where
  buf : List Char
  st : TState

/-- One call of the transform callback with one decoded chunk. -/
def feedChunk (M : Markers) (a : AState) (text : List Char) :
    AState × List Out :=
  let er := sseExtract (a.buf ++ text)
  let fin := er.1.foldl (fun (acc : TState × List Out) e =>
    let r := processFrame M acc.1 (classifyFrame e)
    (r.1, acc.2 ++ r.2)) (a.st, [])
  (⟨er.2, fin.1⟩, fin.2)

/-- The full streaming pipeline on a chunked byte stream (text-level,
after UTF-8 decoding): feed each chunk, then flush. -/
def runChunks (M : Markers) (chunks : List (List Char)) : List Out :=
  let fin := chunks.foldl (fun (acc : AState × List Out) c =>
    let r := feedChunk M acc.1 c
    (r.1, acc.2 ++ r.2)) (⟨⟨[], initTState⟩, []⟩)
  fin.2 ++ flushOuts M fin.1.st

/-- The envelope of one content delta, as used by upstreams. -/
def contentEvent (s : List Char) : Json :=
  Json.obj [(S "choices", Json.arr [Json.obj [(S "index", Json.num (S "0")),
    (S "delta", Json.obj [(S "content", Json.str s)]),
    (S "finish_reason", Json.null)]])]

/-- The content delta carried by one output event. -/
def outContent (o : Out) : List Char :=
  match o with
  | Out.json v =>
    match ((choice0 v).bind (fun c => c.get (S "delta"))).bind
        (fun d => d.get (S "content")) with
    | some (Json.str s) => s
    | _ => []
  | _ => []

def outsContent (os : List Out) : List Char := (os.map outContent).flatten

/-- The delta.tool_calls entries carried by one output event. -/
def outToolCalls (o : Out) : List Json :=
  match o with
  | Out.json v =>
    match ((choice0 v).bind (fun c => c.get (S "delta"))).bind
        (fun d => d.get (S "tool_calls")) with
    | some (Json.arr xs) => xs
    | _ => []
  | _ => []

def outsToolCalls (os : List Out) : List Json := (os.map outToolCalls).flatten

/-- The outputs a sentinel-respecting client reads: everything up to
and including the first terminal sentinel (the flush can re-emit
buffered material after the sentinel, because handling the sentinel
does not reset the state). -/
def outsUntilDone : List Out → List Out
  | [] => []
  | Out.done :: _ => [Out.done]
  | o :: rest => o :: outsUntilDone rest

/- ===== C10: nothing synthesized before a first decoded envelope ===== -/

theorem foldFrames_acc (M : Markers) (fs : List Frame) :
    ∀ (st : TState) (acc : List Out),
    fs.foldl (fun acc f =>
      let r := processFrame M acc.1 f
      (r.1, acc.2 ++ r.2)) (st, acc) =
    ((foldFrames M fs st).1, acc ++ (foldFrames M fs st).2) := by
  induction fs with
  | nil => intro st acc; simp [foldFrames]
  | cons f fs ih =>
    intro st acc
    simp only [foldFrames, List.foldl_cons] at ih ⊢
    rw [ih ((processFrame M st f).1) (acc ++ (processFrame M st f).2),
      ih ((processFrame M st f).1) ([] ++ (processFrame M st f).2)]
    simp

theorem foldFrames_cons (M : Markers) (f : Frame) (fs : List Frame) (st : TState) :
    foldFrames M (f :: fs) st =
      ((foldFrames M fs (processFrame M st f).1).1,
       (processFrame M st f).2 ++ (foldFrames M fs (processFrame M st f).1).2) := by
  simp only [foldFrames, List.foldl_cons]
  rw [foldFrames_acc]
  simp [foldFrames]

theorem foldFrames_nil (M : Markers) (st : TState) :
    foldFrames M [] st = (st, []) := rfl

/-- Before any frame has decoded as a JSON envelope, processing keeps
the initial state and only forwards frames. -/
theorem foldFrames_nonjson (M : Markers) (fs : List Frame)
    (h : ∀ f ∈ fs, ∀ v, f ≠ Frame.json v) :
    (foldFrames M fs initTState).1 = initTState ∧
    (∀ o ∈ (foldFrames M fs initTState).2, ∀ v, o ≠ Out.json v) := by
  induction fs with
  | nil => exact ⟨rfl, by simp [foldFrames]⟩
  | cons f fs ih =>
    have hf := h f (List.mem_cons_self f fs)
    have ih2 := ih (fun g hg v => h g (List.mem_cons_of_mem f hg) v)
    rw [foldFrames_cons]
    cases f with
    | json v => exact absurd rfl (hf v)
    | done =>
      have hp : processFrame M initTState Frame.done = (initTState, [Out.done]) := rfl
      rw [hp]
      refine ⟨ih2.1, ?_⟩
      intro o ho v
      simp only [List.mem_append, List.mem_singleton] at ho
      rcases ho with rfl | ho
      · intro hc; cases hc
      · exact ih2.2 o ho v
    | raw r =>
      have hp : processFrame M initTState (Frame.raw r) = (initTState, [Out.raw r]) := rfl
      rw [hp]
      refine ⟨ih2.1, ?_⟩
      intro o ho v
      simp only [List.mem_append, List.mem_singleton] at ho
      rcases ho with rfl | ho
      · intro hc; cases hc
      · exact ih2.2 o ho v

/-- C10: if the stream ends — with or without the sentinel — before any
frame has decoded as a JSON payload envelope, the transformer emits no
residual-content patch and no synthesized tool-call event: every output
is a forwarded raw frame or the sentinel.  (With no envelope ever seen,
the pending tail and tool buffer are necessarily still empty, and every
synthesis site is guarded by the last envelope.) -/
theorem c10_no_envelope_no_synthesis :
    ∀ (M : Markers) (frames : List Frame),
    (∀ f ∈ frames, ∀ v, f ≠ Frame.json v) →
    ∀ o ∈ runFrames M frames, ∀ v, o ≠ Out.json v := by
  intro M frames h o ho v
  obtain ⟨hst, houts⟩ := foldFrames_nonjson M frames h
  unfold runFrames at ho
  simp only [List.mem_append] at ho
  rcases ho with ho | ho
  · exact houts o ho v
  · rw [hst] at ho
    simp [flushOuts, initTState, envOk] at ho

/-- Witness for C10: a raw junk frame and the sentinel. -/
theorem c10_witness :
    (∀ f ∈ [Frame.raw (S "data: notjson"), Frame.done], ∀ v, f ≠ Frame.json v) ∧
    (∀ o ∈ runFrames M0 [Frame.raw (S "data: notjson"), Frame.done],
      ∀ v, o ≠ Out.json v) :=
  ⟨(by
      intro f hf v
      simp only [List.mem_cons, List.not_mem_nil, or_false] at hf
      rcases hf with rfl | rfl
      · intro hc; cases hc
      · intro hc; cases hc),
   c10_no_envelope_no_synthesis M0 [Frame.raw (S "data: notjson"), Frame.done]
    (by
      intro f hf v
      simp only [List.mem_cons, List.not_mem_nil, or_false] at hf
      rcases hf with rfl | rfl
      · intro hc; cases hc
      · intro hc; cases hc)⟩

/- ===== C1: the output depends only on the concatenated stream ===== -/

theorem splitOnFirst_cons (pat : List Char) (c : Char) (cs : List Char) :
    splitOnFirst pat (c :: cs) =
      if pat.isPrefixOf (c :: cs) then some ([], (c :: cs).drop pat.length)
      else (splitOnFirst pat cs).map (fun ba => (c :: ba.1, ba.2)) := rfl

theorem extractEventsF_succ (f : Nat) (buf : List Char) :
    extractEventsF (f + 1) buf =
      match splitOnFirst nn buf with
      | none => ([], buf)
      | some (e, rest) =>
        ((e :: (extractEventsF f rest).1), (extractEventsF f rest).2) := rfl

theorem splitOnFirst_sound {pat : List Char} : ∀ {s e rest : List Char},
    splitOnFirst pat s = some (e, rest) →
    s = e ++ (pat ++ rest) ∧ ∀ j, j < e.length → ¬ pat <+: s.drop j := by
  intro s
  induction s with
  | nil => intro e rest h; simp [splitOnFirst] at h
  | cons c cs ih =>
    intro e rest h
    rw [splitOnFirst_cons] at h
    by_cases hp : pat.isPrefixOf (c :: cs) = true
    · rw [if_pos hp] at h
      simp only [Option.some.injEq, Prod.mk.injEq] at h
      obtain ⟨rfl, hr⟩ := h
      have hpre : pat <+: (c :: cs) := List.isPrefixOf_iff_prefix.mp hp
      obtain ⟨t, ht⟩ := hpre
      refine ⟨?_, by simp⟩
      rw [← ht, ← hr, ← ht, List.drop_left]
      simp
    · rw [if_neg hp] at h
      cases hsp : splitOnFirst pat cs with
      | none => rw [hsp] at h; simp at h
      | some er =>
        rw [hsp] at h
        obtain ⟨e2, r2⟩ := er
        simp only [Option.map_some', Option.some.injEq, Prod.mk.injEq] at h
        obtain ⟨he, rfl⟩ := h
        obtain ⟨hcs, hmin⟩ := ih hsp
        subst he
        refine ⟨by simp [hcs], ?_⟩
        intro j hj
        cases j with
        | zero =>
          simpa using fun hpre => hp (List.isPrefixOf_iff_prefix.mpr hpre)
        | succ j2 =>
          simp only [List.length_cons] at hj
          simpa using hmin j2 (by omega)

theorem splitOnFirst_none_all {pat : List Char} (hp : pat ≠ []) :
    ∀ {s : List Char}, splitOnFirst pat s = none → ∀ j, ¬ pat <+: s.drop j := by
  intro s
  induction s with
  | nil =>
    intro _ j hpre
    rw [List.drop_nil] at hpre
    exact hp (List.prefix_nil.mp hpre)
  | cons c cs ih =>
    intro h j
    rw [splitOnFirst_cons] at h
    by_cases hpp : pat.isPrefixOf (c :: cs) = true
    · rw [if_pos hpp] at h; simp at h
    · rw [if_neg hpp] at h
      simp only [Option.map_eq_none'] at h
      cases j with
      | zero =>
        simpa using fun hpre => hpp (List.isPrefixOf_iff_prefix.mpr hpre)
      | succ j2 => simpa using ih h j2

theorem splitOnFirst_complete {pat : List Char} (hp : pat ≠ []) :
    ∀ {e rest : List Char},
    (∀ j, j < e.length → ¬ pat <+: (e ++ (pat ++ rest)).drop j) →
    splitOnFirst pat (e ++ (pat ++ rest)) = some (e, rest) := by
  intro e
  induction e with
  | nil =>
    intro rest _
    rcases hpat : pat with _ | ⟨pc, pcs⟩
    · exact absurd hpat hp
    · rw [List.nil_append, List.cons_append, splitOnFirst_cons]
      have hpre : (pc :: pcs).isPrefixOf (pc :: (pcs ++ rest)) = true :=
        List.isPrefixOf_iff_prefix.mpr ⟨rest, by simp⟩
      rw [if_pos hpre]
      rw [show pc :: (pcs ++ rest) = (pc :: pcs) ++ rest by simp]
      rw [List.drop_left]
  | cons c e2 ih =>
    intro rest h
    have h0 : ¬ pat <+: (c :: (e2 ++ (pat ++ rest))) := by
      simpa using h 0 (by simp)
    have hpp : ¬ pat.isPrefixOf (c :: (e2 ++ (pat ++ rest))) = true := fun hc =>
      h0 (List.isPrefixOf_iff_prefix.mp hc)
    rw [List.cons_append, splitOnFirst_cons, if_neg hpp]
    rw [ih (fun j hj => by
      simpa using h (j + 1) (by simpa using Nat.succ_lt_succ hj))]
    rfl

theorem splitOnFirst_rest_lt {pat : List Char} (hp : pat ≠ [])
    {s e rest : List Char} (h : splitOnFirst pat s = some (e, rest)) :
    rest.length < s.length := by
  have hs := (splitOnFirst_sound h).1
  rw [hs]
  simp only [List.length_append]
  cases pat with
  | nil => exact absurd rfl hp
  | cons p ps => simp; omega

theorem extractEventsF_fuel : ∀ (n : Nat), ∀ {s : List Char}, s.length ≤ n →
    ∀ {f : Nat}, s.length < f →
    extractEventsF f s = extractEventsF (s.length + 1) s := by
  intro n
  induction n with
  | zero =>
    intro s hs f hf
    have hnil : s = [] := List.length_eq_zero.mp (Nat.le_zero.mp hs)
    subst hnil
    cases f with
    | zero => simp at hf
    | succ f2 =>
      rw [extractEventsF_succ, extractEventsF_succ,
        show splitOnFirst nn ([] : List Char) = none from rfl]
  | succ n ih =>
    intro s hs f hf
    cases f with
    | zero => omega
    | succ f2 =>
      rw [show s.length + 1 = s.length + 1 from rfl, extractEventsF_succ,
        extractEventsF_succ]
      cases hsp : splitOnFirst nn s with
      | none => rfl
      | some er =>
        obtain ⟨e, rest⟩ := er
        have hlt := splitOnFirst_rest_lt (by decide) hsp
        dsimp only
        rw [ih (s := rest) (by omega) (by omega),
          ih (s := rest) (by omega) (f := s.length) (by omega)]

theorem sseExtract_unfold (s : List Char) :
    sseExtract s = match splitOnFirst nn s with
      | none => ([], s)
      | some (e, rest) => ((e :: (sseExtract rest).1), (sseExtract rest).2) := by
  unfold sseExtract
  rw [extractEventsF_succ]
  cases hsp : splitOnFirst nn s with
  | none => rfl
  | some er =>
    obtain ⟨e, rest⟩ := er
    have hlt := splitOnFirst_rest_lt (by decide) hsp
    dsimp only
    rw [extractEventsF_fuel s.length (by omega) (by omega)]

theorem sseExtract_residue_aux : ∀ (n : Nat) (s : List Char), s.length ≤ n →
    splitOnFirst nn (sseExtract s).2 = none := by
  intro n
  induction n with
  | zero =>
    intro s hs
    have hnil : s = [] := List.length_eq_zero.mp (Nat.le_zero.mp hs)
    subst hnil
    rfl
  | succ n ih =>
    intro s hs
    rw [sseExtract_unfold]
    cases hsp : splitOnFirst nn s with
    | none => exact hsp
    | some er =>
      obtain ⟨e, rest⟩ := er
      have hlt := splitOnFirst_rest_lt (by decide) hsp
      dsimp only
      exact ih rest (by omega)

theorem sseExtract_residue (s : List Char) :
    splitOnFirst nn (sseExtract s).2 = none :=
  sseExtract_residue_aux s.length s le_rfl

theorem prefix_of_append_left {pat u : List Char} (t : List Char)
    (hlen : pat.length ≤ u.length) (h : pat <+: u ++ t) : pat <+: u := by
  have h2 : pat = (u ++ t).take pat.length := List.prefix_iff_eq_take.mp h
  rw [List.take_append_eq_append_take, Nat.sub_eq_zero_of_le hlen,
    List.take_zero, List.append_nil] at h2
  rw [h2]
  exact List.take_prefix pat.length u

theorem sseExtract_glue_aux : ∀ (n : Nat) (s t : List Char), s.length ≤ n →
    sseExtract (s ++ t) =
      ((sseExtract s).1 ++ (sseExtract ((sseExtract s).2 ++ t)).1,
       (sseExtract ((sseExtract s).2 ++ t)).2) := by
  intro n
  induction n with
  | zero =>
    intro s t hs
    have hnil : s = [] := List.length_eq_zero.mp (Nat.le_zero.mp hs)
    subst hnil
    simp [show sseExtract ([] : List Char) = ([], []) from rfl]
  | succ n ih =>
    intro s t hs
    cases hsp : splitOnFirst nn s with
    | none =>
      have h1 : sseExtract s = ([], s) := by rw [sseExtract_unfold, hsp]
      rw [h1]
      simp
    | some er =>
      obtain ⟨e, rest⟩ := er
      obtain ⟨hdec, hmin⟩ := splitOnFirst_sound hsp
      have hlt := splitOnFirst_rest_lt (show nn ≠ [] by decide) hsp
      have h1 : sseExtract s = (e :: (sseExtract rest).1, (sseExtract rest).2) := by
        rw [sseExtract_unfold, hsp]
      have hst : s ++ t = e ++ (nn ++ (rest ++ t)) := by rw [hdec]; simp
      have hmin' : ∀ j, j < e.length → ¬ nn <+: (e ++ (nn ++ (rest ++ t))).drop j := by
        intro j hj hpre
        have hjle : j ≤ (e ++ (nn ++ rest)).length := by
          simp only [List.length_append]; omega
        have hd : (e ++ (nn ++ (rest ++ t))).drop j = (e ++ (nn ++ rest)).drop j ++ t := by
          rw [show e ++ (nn ++ (rest ++ t)) = (e ++ (nn ++ rest)) ++ t by simp,
            List.drop_append_eq_append_drop, Nat.sub_eq_zero_of_le hjle,
            List.drop_zero]
        rw [hd] at hpre
        have hlen : nn.length ≤ ((e ++ (nn ++ rest)).drop j).length := by
          simp only [List.length_drop, List.length_append]
          have : nn.length = 2 := rfl
          omega
        have := prefix_of_append_left t hlen hpre
        rw [← hdec] at this
        exact hmin j hj this
      have h2 : splitOnFirst nn (s ++ t) = some (e, rest ++ t) := by
        rw [hst]
        exact splitOnFirst_complete (by decide) hmin'
      have ihr := ih rest t (by omega)
      have i1 : (sseExtract (rest ++ t)).1 =
          (sseExtract rest).1 ++ (sseExtract ((sseExtract rest).2 ++ t)).1 := by
        rw [ihr]
      have i2 : (sseExtract (rest ++ t)).2 =
          (sseExtract ((sseExtract rest).2 ++ t)).2 := by
        rw [ihr]
      have h3 : sseExtract (s ++ t) =
          (e :: (sseExtract (rest ++ t)).1, (sseExtract (rest ++ t)).2) := by
        rw [sseExtract_unfold, h2]
      rw [h3, h1, i1, i2]
      simp

theorem sseExtract_glue (s t : List Char) :
    sseExtract (s ++ t) =
      ((sseExtract s).1 ++ (sseExtract ((sseExtract s).2 ++ t)).1,
       (sseExtract ((sseExtract s).2 ++ t)).2) :=
  sseExtract_glue_aux s.length s t le_rfl

/-- Processing a list of raw SSE events: classify each and fold the
per-frame body (this is the event loop inside the transform callback). -/
def feedEvents (M : Markers) (st : TState) (es : List (List Char)) :
    TState × List Out :=
  foldFrames M (es.map classifyFrame) st

theorem feedChunk_eq (M : Markers) (a : AState) (text : List Char) :
    feedChunk M a text =
      (⟨(sseExtract (a.buf ++ text)).2,
        (feedEvents M a.st (sseExtract (a.buf ++ text)).1).1⟩,
       (feedEvents M a.st (sseExtract (a.buf ++ text)).1).2) := by
  simp only [feedChunk, feedEvents, foldFrames, List.foldl_map]

theorem feedEvents_cons (M : Markers) (e : List Char) (es : List (List Char))
    (st : TState) :
    feedEvents M st (e :: es) =
      ((feedEvents M (processFrame M st (classifyFrame e)).1 es).1,
       (processFrame M st (classifyFrame e)).2 ++
         (feedEvents M (processFrame M st (classifyFrame e)).1 es).2) := by
  simp only [feedEvents, List.map_cons, foldFrames_cons]

theorem feedEvents_append (M : Markers) (es1 : List (List Char)) :
    ∀ (es2 : List (List Char)) (st : TState),
    feedEvents M st (es1 ++ es2) =
      ((feedEvents M (feedEvents M st es1).1 es2).1,
       (feedEvents M st es1).2 ++ (feedEvents M (feedEvents M st es1).1 es2).2) := by
  induction es1 with
  | nil => intro es2 st; simp [feedEvents, foldFrames_nil]
  | cons e es ih =>
    intro es2 st
    rw [show (e :: es) ++ es2 = e :: (es ++ es2) from rfl, feedEvents_cons,
      ih, feedEvents_cons]
    simp [List.append_assoc]

theorem feedChunk_append (M : Markers) (a : AState) (c1 c2 : List Char) :
    feedChunk M a (c1 ++ c2) =
      ((feedChunk M (feedChunk M a c1).1 c2).1,
       (feedChunk M a c1).2 ++ (feedChunk M (feedChunk M a c1).1 c2).2) := by
  rw [feedChunk_eq M a (c1 ++ c2), feedChunk_eq M a c1]
  rw [feedChunk_eq M ⟨(sseExtract (a.buf ++ c1)).2,
    (feedEvents M a.st (sseExtract (a.buf ++ c1)).1).1⟩ c2]
  have hglue := sseExtract_glue (a.buf ++ c1) c2
  rw [show a.buf ++ (c1 ++ c2) = (a.buf ++ c1) ++ c2 by simp, hglue]
  rw [feedEvents_append]

/-- The chunk loop: feed each chunk in order, accumulating outputs. -/
def feedChunksFold (M : Markers) (cs : List (List Char)) (a : AState) :
    AState × List Out :=
  cs.foldl (fun acc c =>
    let r := feedChunk M acc.1 c
    (r.1, acc.2 ++ r.2)) (a, [])

theorem feedChunksFold_acc (M : Markers) (cs : List (List Char)) :
    ∀ (a : AState) (acc : List Out),
    cs.foldl (fun acc c =>
      let r := feedChunk M acc.1 c
      (r.1, acc.2 ++ r.2)) (a, acc) =
    ((feedChunksFold M cs a).1, acc ++ (feedChunksFold M cs a).2) := by
  induction cs with
  | nil => intro a acc; simp [feedChunksFold]
  | cons c cs ih =>
    intro a acc
    simp only [feedChunksFold, List.foldl_cons] at ih ⊢
    rw [ih ((feedChunk M a c).1) (acc ++ (feedChunk M a c).2),
      ih ((feedChunk M a c).1) ([] ++ (feedChunk M a c).2)]
    simp

theorem feedChunksFold_cons (M : Markers) (c : List Char) (cs : List (List Char))
    (a : AState) :
    feedChunksFold M (c :: cs) a =
      ((feedChunksFold M cs (feedChunk M a c).1).1,
       (feedChunk M a c).2 ++ (feedChunksFold M cs (feedChunk M a c).1).2) := by
  simp only [feedChunksFold, List.foldl_cons]
  rw [feedChunksFold_acc]
  simp [feedChunksFold]

/-- Feeding a list of chunks one by one is the same as feeding their
concatenation in a single chunk, provided the reassembly buffer holds
no complete event (true of every reachable state). -/
theorem feedChunksFold_flatten (M : Markers) :
    ∀ (cs : List (List Char)) (a : AState),
    splitOnFirst nn a.buf = none →
    feedChunksFold M cs a = feedChunk M a cs.flatten := by
  intro cs
  induction cs with
  | nil =>
    intro a h
    have h0 : sseExtract (a.buf ++ []) = ([], a.buf) := by
      rw [List.append_nil, sseExtract_unfold, h]
    rw [show ([] : List (List Char)).flatten = [] from rfl, feedChunk_eq, h0]
    rfl
  | cons c cs ih =>
    intro a h
    have hbuf : splitOnFirst nn (feedChunk M a c).1.buf = none := by
      rw [feedChunk_eq]
      exact sseExtract_residue (a.buf ++ c)
    rw [feedChunksFold_cons, ih (feedChunk M a c).1 hbuf,
      show (c :: cs).flatten = c ++ cs.flatten from rfl,
      feedChunk_append]

/-- C1: the streaming pipeline's complete output — every forwarded
event, every synthesized tool-call event, the sentinel, and the final
flush — depends only on the concatenation of the chunks, not on where
the chunk boundaries fall.  In particular, for a complete event stream
containing a marker-delimited tool-call block, every split of its text
into chunks (including splits inside a marker token) yields identical
final output: the same extracted tool calls and the same residual
text. -/
theorem c1_chunking_invariance (M : Markers) (cs1 cs2 : List (List Char))
    (h : cs1.flatten = cs2.flatten) :
    runChunks M cs1 = runChunks M cs2 := by
  have e1 : feedChunksFold M cs1 ⟨[], initTState⟩ =
      feedChunk M ⟨[], initTState⟩ cs1.flatten :=
    feedChunksFold_flatten M cs1 ⟨[], initTState⟩ rfl
  have e2 : feedChunksFold M cs2 ⟨[], initTState⟩ =
      feedChunk M ⟨[], initTState⟩ cs2.flatten :=
    feedChunksFold_flatten M cs2 ⟨[], initTState⟩ rfl
  show (feedChunksFold M cs1 ⟨[], initTState⟩).2 ++
      flushOuts M (feedChunksFold M cs1 ⟨[], initTState⟩).1.st =
    (feedChunksFold M cs2 ⟨[], initTState⟩).2 ++
      flushOuts M (feedChunksFold M cs2 ⟨[], initTState⟩).1.st
  rw [e1, e2, h]

/-- A complete event stream with one marker-delimited tool-call block in
its content delta, followed by the terminal sentinel. -/
def c1full : List Char :=
  S "data: \x7b\"choices\":[\x7b\"index\":0,\"delta\":\x7b\"content\":\"༒龘ᐅ ࿇▸get_time◂࿇ ࿇▹ \\\"x\\\" ◃࿇ ᐊ龘༒\"\x7d,\"finish_reason\":null\x7d]\x7d\n\ndata: [DONE]\n\n"

/-- Witness for C1 at a concrete split: cutting the stream in the middle
of the start-marker token yields the same output as a single chunk. -/
theorem c1_chunking_invariance_witness :
    ([c1full.take 50, c1full.drop 50] : List (List Char)).flatten =
      [c1full].flatten ∧
    runChunks M0 [c1full.take 50, c1full.drop 50] = runChunks M0 [c1full] :=
  ⟨by decide,
   c1_chunking_invariance M0 [c1full.take 50, c1full.drop 50] [c1full] (by decide)⟩

/- ===== C2: delimiter tokens and forwarded content ===== -/

/-- The content delta carried by one incoming frame (what the client
would have seen without the transformer). -/
def frameContent : Frame → List Char
  | Frame.json v => outContent (Out.json v)
  | _ => []

theorem indexOfSub_none {marker : List Char} (hm : marker ≠ []) :
    ∀ {t : List Char}, ¬ marker <:+: t → indexOfSub marker t = none := by
  intro t
  induction t with
  | nil =>
    intro _
    have he : marker.isEmpty = false := by
      cases marker with
      | nil => exact absurd rfl hm
      | cons c cs => rfl
    simp [indexOfSub, he]
  | cons c cs ih =>
    intro h
    have hnp : ¬ marker.isPrefixOf (c :: cs) = true := fun hc =>
      h (List.isPrefixOf_iff_prefix.mp hc).isInfix
    rw [indexOfSub, if_neg hnp, ih (fun hc => h (by
      obtain ⟨u, w, huw⟩ := hc
      exact ⟨c :: u, w, by simp [huw]⟩))]
    rfl

theorem splitByMarker_none {text marker : List Char} (hm : marker ≠ [])
    (h : ¬ marker <:+: text) : splitByMarker text marker = none := by
  rw [splitByMarker, indexOfSub_none hm h]
  rfl

theorem Json.get_nonobj {o : Json} (h : ∀ kvs, o ≠ Json.obj kvs)
    (k : List Char) : o.get k = none := by
  cases o with
  | obj kvs => exact absurd rfl (h kvs)
  | null => rfl
  | bool b => rfl
  | num l => rfl
  | str s => rfl
  | arr xs => rfl

theorem Json.set_nonobj {o : Json} (h : ∀ kvs, o ≠ Json.obj kvs)
    (k : List Char) (v : Json) : o.set k v = o := by
  cases o with
  | obj kvs => exact absurd rfl (h kvs)
  | null => rfl
  | bool b => rfl
  | num l => rfl
  | str s => rfl
  | arr xs => rfl

theorem Json.get_del_eq (kvs : List (List Char × Json)) (k : List Char) :
    ((Json.obj kvs).del k).get k = none := by
  rw [Json.del, Json.get, Option.map_eq_none', List.find?_eq_none]
  intro kv hkv
  have hne := List.of_mem_filter hkv
  simp only [bne_iff_ne, ne_eq, decide_eq_true_eq] at hne
  simp [hne]

theorem envOk_some {o : Option Json} {env : Json} (h : envOk o = some env) :
    o = some env := by
  cases o with
  | none => simp [envOk] at h
  | some v =>
    simp only [envOk, Option.bind] at h
    by_cases hf : jsFalsy v = true
    · rw [if_pos hf] at h
      cases h
    · rw [if_neg hf] at h
      exact h

theorem outContent_json {v : Json} {c0 : Json} {rest : List Json}
    (hch : v.get (S "choices") = some (Json.arr (c0 :: rest))) :
    outContent (Out.json v) =
      (match (c0.get (S "delta")).bind (fun d => d.get (S "content")) with
        | some (Json.str s) => s
        | _ => []) := by
  simp [outContent, choice0, hch, Json.head?, Option.bind]

theorem outContent_json_other {v : Json}
    (h : ∀ c0 rest, v.get (S "choices") ≠ some (Json.arr (c0 :: rest))) :
    outContent (Out.json v) = [] := by
  cases hch : v.get (S "choices") with
  | none => simp [outContent, choice0, hch, Option.bind]
  | some j =>
    cases j with
    | arr xs =>
      cases xs with
      | nil => simp [outContent, choice0, hch, Option.bind, Json.head?]
      | cons c0 rest => exact absurd hch (h c0 rest)
    | null => simp [outContent, choice0, hch, Option.bind, Json.head?]
    | bool b => simp [outContent, choice0, hch, Option.bind, Json.head?]
    | num l => simp [outContent, choice0, hch, Option.bind, Json.head?]
    | str s => simp [outContent, choice0, hch, Option.bind, Json.head?]
    | obj kvs => simp [outContent, choice0, hch, Option.bind, Json.head?]

theorem outContent_patchContent (env : Json) (t : List Char) :
    outContent (Out.json (patchContent env t)) = t ∨
    outContent (Out.json (patchContent env t)) = [] ∨
    outContent (Out.json (patchContent env t)) = outContent (Out.json env) := by
  by_cases hsh : ∃ c0 rest, env.get (S "choices") = some (Json.arr (c0 :: rest))
  case neg =>
    right; right
    have hid : patchContent env t = env := by
      unfold patchContent updateChoice0
      cases hch : env.get (S "choices") with
      | none => rfl
      | some j =>
        cases j with
        | arr xs =>
          cases xs with
          | nil => rfl
          | cons c0 rest => exact absurd ⟨c0, rest, hch⟩ hsh
        | null => rfl
        | bool b => rfl
        | num l => rfl
        | str s => rfl
        | obj kvs => rfl
    rw [hid]
  case pos =>
    obtain ⟨c0, rest, hch⟩ := hsh
    obtain ⟨kvs, rfl⟩ := Json.obj_of_get_some hch
    have hupd : patchContent (Json.obj kvs) t =
        (Json.obj kvs).set (S "choices")
          (Json.arr (setDeltaContent c0 t :: rest)) := by
      unfold patchContent updateChoice0
      rw [hch]
    have hget : ((Json.obj kvs).set (S "choices")
        (Json.arr (setDeltaContent c0 t :: rest))).get (S "choices") =
        some (Json.arr (setDeltaContent c0 t :: rest)) :=
      Json.get_set_eq ⟨kvs, rfl⟩
    rw [hupd, outContent_json hget]
    by_cases hc0 : ∃ k2, c0 = Json.obj k2
    case neg =>
      have hno : ∀ k2, c0 ≠ Json.obj k2 := fun k2 hk => hc0 ⟨k2, hk⟩
      right; right
      rw [outContent_json hch]
      have hsd : setDeltaContent c0 t = c0 := by
        unfold setDeltaContent
        exact Json.set_nonobj hno _ _
      rw [hsd]
    case pos =>
      have hsd : (setDeltaContent c0 t).get (S "delta") =
          some ((match c0.get (S "delta") with
            | some d => if jsFalsy d then Json.obj [] else d
            | none => Json.obj []).set (S "content") (Json.str t)) := by
        unfold setDeltaContent
        exact Json.get_set_eq hc0
      rw [hsd]
      cases hd : c0.get (S "delta") with
      | none =>
        left
        dsimp only
        have : ((Json.obj []).set (S "content") (Json.str t)).get (S "content") =
            some (Json.str t) := Json.get_set_eq ⟨[], rfl⟩
        simp [Option.bind, this]
      | some d =>
        dsimp only
        by_cases hf : jsFalsy d = true
        · left
          rw [if_pos hf]
          have : ((Json.obj []).set (S "content") (Json.str t)).get (S "content") =
              some (Json.str t) := Json.get_set_eq ⟨[], rfl⟩
          simp [Option.bind, this]
        · rw [if_neg hf]
          by_cases hdo : ∃ dk, d = Json.obj dk
          · left
            have : (d.set (S "content") (Json.str t)).get (S "content") =
                some (Json.str t) := Json.get_set_eq hdo
            simp [Option.bind, this]
          · right; left
            have hno : ∀ dk, d ≠ Json.obj dk := fun dk hk => hdo ⟨dk, hk⟩
            rw [Json.set_nonobj hno]
            simp [Option.bind, Json.get_nonobj hno]

theorem outContent_removeDeltaContent (v : Json) :
    outContent (Out.json (removeDeltaContent v)) = [] ∨
    outContent (Out.json (removeDeltaContent v)) = outContent (Out.json v) := by
  by_cases hsh : ∃ c0 rest, v.get (S "choices") = some (Json.arr (c0 :: rest))
  case neg =>
    right
    have hid : removeDeltaContent v = v := by
      unfold removeDeltaContent updateChoice0
      cases hch : v.get (S "choices") with
      | none => rfl
      | some j =>
        cases j with
        | arr xs =>
          cases xs with
          | nil => rfl
          | cons c0 rest => exact absurd ⟨c0, rest, hch⟩ hsh
        | null => rfl
        | bool b => rfl
        | num l => rfl
        | str s => rfl
        | obj kvs => rfl
    rw [hid]
  case pos =>
    obtain ⟨c0, rest, hch⟩ := hsh
    obtain ⟨kvs, rfl⟩ := Json.obj_of_get_some hch
    have hupd : removeDeltaContent (Json.obj kvs) =
        (Json.obj kvs).set (S "choices")
          (Json.arr ((match c0.get (S "delta") with
            | some (Json.obj dk) =>
              c0.set (S "delta") ((Json.obj dk).del (S "content"))
            | _ => c0) :: rest)) := by
      unfold removeDeltaContent updateChoice0
      rw [hch]
    have hget : ∀ (x : Json), ((Json.obj kvs).set (S "choices")
        (Json.arr (x :: rest))).get (S "choices") =
        some (Json.arr (x :: rest)) := fun x => Json.get_set_eq ⟨kvs, rfl⟩
    rw [hupd, outContent_json (hget _)]
    cases hd : c0.get (S "delta") with
    | none =>
      right
      rw [outContent_json hch, hd]
    | some d =>
      cases d with
      | obj dk =>
        left
        have hc0obj : ∃ k2, c0 = Json.obj k2 := Json.obj_of_get_some hd
        have hset : (c0.set (S "delta") ((Json.obj dk).del (S "content"))).get
            (S "delta") = some ((Json.obj dk).del (S "content")) :=
          Json.get_set_eq hc0obj
        simp [hset, Option.bind, Json.get_del_eq]
      | null => right; rw [outContent_json hch, hd]
      | bool b => right; rw [outContent_json hch, hd]
      | num l => right; rw [outContent_json hch, hd]
      | str s => right; rw [outContent_json hch, hd]
      | arr xs => right; rw [outContent_json hch, hd]


/-- The reachable-state invariant while the concatenated content stream
has shown no occurrence of the call-start marker: nothing is buffering,
the tool buffer is empty, the held-back pending tail is a suffix of the
content seen so far, and the last envelope's own content is a piece of
it. -/
def ConInv (c : List Char) (st : TState) : Prop :=
  st.bufferingTool = false ∧ st.toolBuffer = [] ∧ st.pendingText <:+ c ∧
  ∀ v, st.lastEnvelope = some v → outContent (Out.json v) <:+: c

theorem c2_step_json_fwd (M : Markers) (st : TState) (v : Json) (c : List Char)
    (hInv : ConInv c st)
    (hfc : outContent (Out.json v) = [])
    (hpf : processFrame M st (Frame.json v) =
      ({st with lastEnvelope := some v}, [Out.json v])) :
    ConInv (c ++ frameContent (Frame.json v))
      (processFrame M st (Frame.json v)).1 ∧
    ∀ o ∈ (processFrame M st (Frame.json v)).2,
      outContent o <:+: c ++ frameContent (Frame.json v) := by
  obtain ⟨hb, htb, hpend, henv⟩ := hInv
  have hfc2 : frameContent (Frame.json v) = [] := hfc
  rw [hpf, hfc2, List.append_nil]
  refine ⟨⟨hb, htb, hpend, ?_⟩, ?_⟩
  · intro v2 hv2
    have hv2x : some v = some v2 := hv2
    cases hv2x
    rw [hfc]
    exact List.nil_infix
  · intro o ho
    simp only [List.mem_singleton] at ho
    subst ho
    rw [hfc]
    exact List.nil_infix

theorem c2_step (M : Markers) (st : TState) (f : Frame) (c : List Char)
    (hS : M.TC_START ≠ [])
    (hfree : ¬ M.TC_START <:+: c ++ frameContent f)
    (hInv : ConInv c st) :
    ConInv (c ++ frameContent f) (processFrame M st f).1 ∧
    ∀ o ∈ (processFrame M st f).2, outContent o <:+: c ++ frameContent f := by
  obtain ⟨hb, htb, hpend, henv⟩ := hInv
  cases f with
  | raw r =>
    refine ⟨⟨hb, htb, by simpa [frameContent] using hpend,
      fun v hv => by simpa [frameContent] using henv v hv⟩, ?_⟩
    intro o ho
    simp only [processFrame, List.mem_singleton] at ho
    subst ho
    exact List.nil_infix
  | done =>
    refine ⟨⟨hb, htb, by simpa [frameContent] using hpend,
      fun v hv => by simpa [frameContent] using henv v hv⟩, ?_⟩
    intro o ho
    simp only [frameContent, List.append_nil]
    have hlist : (processFrame M st Frame.done).2 =
        (match envOk st.lastEnvelope with
          | some env => if !st.pendingText.isEmpty
            then [Out.json (patchContent env st.pendingText)] else []
          | none => []) ++ [Out.done] := by
      simp [processFrame, htb]
    rw [hlist, List.mem_append] at ho
    rcases ho with ho | ho
    · cases henvk : envOk st.lastEnvelope with
      | none => rw [henvk] at ho; simp at ho
      | some env =>
        rw [henvk] at ho
        have henv2 := henv env (envOk_some henvk)
        dsimp only at ho
        by_cases hp : (!st.pendingText.isEmpty) = true
        · rw [if_pos hp] at ho
          simp only [List.mem_singleton] at ho
          subst ho
          rcases outContent_patchContent env st.pendingText with h3 | h3 | h3 <;> rw [h3]
          · exact hpend.isInfix
          · exact List.nil_infix
          · exact henv2
        · rw [if_neg hp] at ho
          simp at ho
    · simp only [List.mem_singleton] at ho
      subst ho
      exact List.nil_infix
  | json v =>
    cases hch : v.get (S "choices") with
    | none =>
      have hother : ∀ c0 rest, v.get (S "choices") ≠ some (Json.arr (c0 :: rest)) := by
        rw [hch]; intro c0 rest hx; cases hx
      exact c2_step_json_fwd M st v c ⟨hb, htb, hpend, henv⟩
        (outContent_json_other hother) (by simp [processFrame, hch])
    | some j =>
      cases j with
      | null =>
        have hother : ∀ c0 rest, v.get (S "choices") ≠ some (Json.arr (c0 :: rest)) := by
          rw [hch]; intro c0 rest hx; cases hx
        exact c2_step_json_fwd M st v c ⟨hb, htb, hpend, henv⟩
          (outContent_json_other hother) (by simp [processFrame, hch])
      | bool b =>
        have hother : ∀ c0 rest, v.get (S "choices") ≠ some (Json.arr (c0 :: rest)) := by
          rw [hch]; intro c0 rest hx; cases hx
        exact c2_step_json_fwd M st v c ⟨hb, htb, hpend, henv⟩
          (outContent_json_other hother) (by simp [processFrame, hch])
      | num l =>
        have hother : ∀ c0 rest, v.get (S "choices") ≠ some (Json.arr (c0 :: rest)) := by
          rw [hch]; intro c0 rest hx; cases hx
        exact c2_step_json_fwd M st v c ⟨hb, htb, hpend, henv⟩
          (outContent_json_other hother) (by simp [processFrame, hch])
      | str s2 =>
        have hother : ∀ c0 rest, v.get (S "choices") ≠ some (Json.arr (c0 :: rest)) := by
          rw [hch]; intro c0 rest hx; cases hx
        exact c2_step_json_fwd M st v c ⟨hb, htb, hpend, henv⟩
          (outContent_json_other hother) (by simp [processFrame, hch])
      | obj kvs =>
        have hother : ∀ c0 rest, v.get (S "choices") ≠ some (Json.arr (c0 :: rest)) := by
          rw [hch]; intro c0 rest hx; cases hx
        exact c2_step_json_fwd M st v c ⟨hb, htb, hpend, henv⟩
          (outContent_json_other hother) (by simp [processFrame, hch])
      | arr xs =>
        cases xs with
        | nil =>
          have hother : ∀ c0 rest, v.get (S "choices") ≠ some (Json.arr (c0 :: rest)) := by
            rw [hch]; intro c0 rest hx; cases hx
          exact c2_step_json_fwd M st v c ⟨hb, htb, hpend, henv⟩
            (outContent_json_other hother) (by simp [processFrame, hch])
        | cons c0 rest =>
          cases hco : (c0.get (S "delta")).bind (fun d => d.get (S "content")) with
          | none =>
            have hfc : outContent (Out.json v) = [] := by
              rw [outContent_json hch, hco]
            exact c2_step_json_fwd M st v c ⟨hb, htb, hpend, henv⟩ hfc
              (by
                simp only [processFrame]
                rw [hch]
                dsimp only
                rw [hco])
          | some d =>
            cases d with
            | null =>
              have hfc : outContent (Out.json v) = [] := by
                rw [outContent_json hch, hco]
              exact c2_step_json_fwd M st v c ⟨hb, htb, hpend, henv⟩ hfc
                (by
                  simp only [processFrame]
                  rw [hch]
                  dsimp only
                  rw [hco])
            | bool b =>
              have hfc : outContent (Out.json v) = [] := by
                rw [outContent_json hch, hco]
              exact c2_step_json_fwd M st v c ⟨hb, htb, hpend, henv⟩ hfc
                (by
                  simp only [processFrame]
                  rw [hch]
                  dsimp only
                  rw [hco])
            | num l =>
              have hfc : outContent (Out.json v) = [] := by
                rw [outContent_json hch, hco]
              exact c2_step_json_fwd M st v c ⟨hb, htb, hpend, henv⟩ hfc
                (by
                  simp only [processFrame]
                  rw [hch]
                  dsimp only
                  rw [hco])
            | arr ys =>
              have hfc : outContent (Out.json v) = [] := by
                rw [outContent_json hch, hco]
              exact c2_step_json_fwd M st v c ⟨hb, htb, hpend, henv⟩ hfc
                (by
                  simp only [processFrame]
                  rw [hch]
                  dsimp only
                  rw [hco])
            | obj dk =>
              have hfc : outContent (Out.json v) = [] := by
                rw [outContent_json hch, hco]
              exact c2_step_json_fwd M st v c ⟨hb, htb, hpend, henv⟩ hfc
                (by
                  simp only [processFrame]
                  rw [hch]
                  dsimp only
                  rw [hco])
            | str s =>
              have hfc : outContent (Out.json v) = s := by
                rw [outContent_json hch, hco]
              have hfcF : frameContent (Frame.json v) = s := hfc
              by_cases hse : s.isEmpty = true
              · have hs0 : s = [] := by
                  cases s with
                  | nil => rfl
                  | cons a as => cases hse
                exact c2_step_json_fwd M st v c ⟨hb, htb, hpend, henv⟩
                  (by rw [outContent_json hch, hco, hs0])
                  (by
                    simp only [processFrame]
                    rw [hch]
                    dsimp only
                    rw [hco]
                    dsimp only
                    rw [if_pos hse])
              · -- the live branch: no marker anywhere, so the split misses
                -- and only a safe prefix is forwarded
                have hcsuf : st.pendingText ++ s <:+ c ++ s := by
                  obtain ⟨u, hu⟩ := hpend
                  exact ⟨u, by rw [← List.append_assoc, hu]⟩
                have hcinf : ¬ M.TC_START <:+: st.pendingText ++ s := by
                  intro hx
                  exact hfree (by rw [hfcF]; exact hx.trans hcsuf.isInfix)
                have hsplit : splitByMarker (st.pendingText ++ s) M.TC_START = none :=
                  splitByMarker_none hS hcinf
                have hpf : processFrame M st (Frame.json v) =
                    ({ st with
                        pendingText := (st.pendingText ++ s).drop
                          (findPartialMatchEndIndex (st.pendingText ++ s) M.TC_START),
                        lastEnvelope := some v },
                     [if !((st.pendingText ++ s).take
                          (findPartialMatchEndIndex (st.pendingText ++ s) M.TC_START)).isEmpty
                      then Out.json (patchContent v ((st.pendingText ++ s).take
                          (findPartialMatchEndIndex (st.pendingText ++ s) M.TC_START)))
                      else Out.json (removeDeltaContent v)]) := by
                  simp only [processFrame]
                  rw [hch]
                  dsimp only
                  rw [hco]
                  dsimp only
                  rw [if_neg hse]
                  rw [if_neg (by rw [hb]; exact Bool.false_ne_true)]
                  rw [hsplit]
                rw [hpf, hfcF]
                refine ⟨⟨hb, htb, ?_, ?_⟩, ?_⟩
                · exact (List.drop_suffix _ _).trans hcsuf
                · intro v2 hv2
                  have hv2x : some v = some v2 := hv2
                  cases hv2x
                  rw [hfc]
                  exact (List.suffix_append c s).isInfix
                · intro o ho
                  simp only [List.mem_singleton] at ho
                  subst ho
                  by_cases hq : (!((st.pendingText ++ s).take
                      (findPartialMatchEndIndex (st.pendingText ++ s) M.TC_START)).isEmpty) = true
                  · rw [if_pos hq]
                    rcases outContent_patchContent v ((st.pendingText ++ s).take
                        (findPartialMatchEndIndex (st.pendingText ++ s) M.TC_START))
                      with h3 | h3 | h3 <;> rw [h3]
                    · exact (List.take_prefix _ _).isInfix.trans hcsuf.isInfix
                    · exact List.nil_infix
                    · rw [hfc]
                      exact (List.suffix_append c s).isInfix
                  · rw [if_neg hq]
                    rcases outContent_removeDeltaContent v with h3 | h3 <;> rw [h3]
                    · exact List.nil_infix
                    · rw [hfc]
                      exact (List.suffix_append c s).isInfix

theorem c2_fold (M : Markers) (hS : M.TC_START ≠ []) :
    ∀ (frames : List Frame) (st : TState) (c : List Char),
    ¬ M.TC_START <:+: c ++ (frames.map frameContent).flatten →
    ConInv c st →
    ConInv (c ++ (frames.map frameContent).flatten) (foldFrames M frames st).1 ∧
    ∀ o ∈ (foldFrames M frames st).2,
      outContent o <:+: c ++ (frames.map frameContent).flatten := by
  intro frames
  induction frames with
  | nil =>
    intro st c h hI
    rw [foldFrames_nil]
    exact ⟨by simpa using hI, by simp⟩
  | cons f fs ih =>
    intro st c h hI
    rw [foldFrames_cons]
    have hconcat : ((f :: fs).map frameContent).flatten =
        frameContent f ++ (fs.map frameContent).flatten := by simp
    have hfree1 : ¬ M.TC_START <:+: c ++ frameContent f := fun hx =>
      h (by
        rw [hconcat, ← List.append_assoc]
        exact hx.trans (List.prefix_append _ _).isInfix)
    have hstep := c2_step M st f c hS hfree1 hI
    have hfree2 : ¬ M.TC_START <:+:
        (c ++ frameContent f) ++ (fs.map frameContent).flatten := fun hx =>
      h (by rw [hconcat, ← List.append_assoc]; exact hx)
    have hrec := ih (processFrame M st f).1 (c ++ frameContent f) hfree2 hstep.1
    constructor
    · rw [hconcat, ← List.append_assoc]
      exact hrec.1
    · intro o ho
      rw [List.mem_append] at ho
      rw [hconcat, ← List.append_assoc]
      rcases ho with ho | ho
      · exact (hstep.2 o ho).trans (List.prefix_append _ _).isInfix
      · exact hrec.2 o ho

/-- C2, amended: whenever the concatenation of the upstream content
deltas contains no delimiter token at all, no content the transformer
emits — forwarded, patched, or flushed — contains a delimiter token.
(The unamended claim is refuted by c2_counterexample: when the upstream
stream ends while a tool-call block is incomplete, the buffered text is
re-emitted verbatim, start marker included.) -/
theorem c2_amended (M : Markers) (frames : List Frame)
    (hS : M.TC_START ≠ [])
    (hfree : ∀ tok ∈ tokensOf M, ¬ tok <:+: (frames.map frameContent).flatten) :
    ∀ o ∈ runFrames M frames, ∀ tok ∈ tokensOf M, ¬ tok <:+: outContent o := by
  intro o ho tok htok hbad
  have hSf : ¬ M.TC_START <:+: ([] : List Char) ++ (frames.map frameContent).flatten := by
    simpa using hfree M.TC_START (by simp [tokensOf])
  have hI0 : ConInv [] initTState :=
    ⟨rfl, rfl, List.nil_suffix, fun v hv => by cases hv⟩
  have hmain := c2_fold M hS frames initTState [] hSf hI0
  unfold runFrames at ho
  rw [List.mem_append] at ho
  have hoinf : outContent o <:+: (frames.map frameContent).flatten := by
    rcases ho with ho | ho
    · simpa using hmain.2 o ho
    · obtain ⟨⟨hb, htb, hpend, henv⟩, _⟩ := hmain
      have hlist : flushOuts M (foldFrames M frames initTState).1 =
          (match envOk (foldFrames M frames initTState).1.lastEnvelope with
            | some env =>
              if (!(foldFrames M frames initTState).1.pendingText.isEmpty &&
                  !(foldFrames M frames initTState).1.bufferingTool) = true
              then [Out.json (patchContent env
                (foldFrames M frames initTState).1.pendingText)] else []
            | none => []) ++ [] := by
        rw [flushOuts, htb]
        simp
        cases envOk (foldFrames M frames initTState).1.lastEnvelope <;> rfl
      rw [hlist, List.append_nil] at ho
      cases henvk : envOk (foldFrames M frames initTState).1.lastEnvelope with
      | none => rw [henvk] at ho; simp at ho
      | some env =>
        rw [henvk] at ho
        have henv2 := by simpa using henv env (envOk_some henvk)
        dsimp only at ho
        by_cases hp : (!(foldFrames M frames initTState).1.pendingText.isEmpty &&
            !(foldFrames M frames initTState).1.bufferingTool) = true
        · rw [if_pos hp] at ho
          simp only [List.mem_singleton] at ho
          subst ho
          rcases outContent_patchContent env
              (foldFrames M frames initTState).1.pendingText with h3 | h3 | h3 <;> rw [h3]
          · simpa using hpend.isInfix
          · exact List.nil_infix
          · exact henv2
        · rw [if_neg hp] at ho
          simp at ho
  exact absurd (hbad.trans hoinf) (hfree tok htok)

/-- The literal spec sentence: on every stream, no delimiter token of
the marker set ever appears in content delivered to the client. -/
def claimC2 : Prop :=
  ∀ (M : Markers) (frames : List Frame),
    ∀ o ∈ runFrames M frames, ∀ tok ∈ tokensOf M, ¬ tok <:+: outContent o

/-- C2 counterexample: a content delta opens a tool-call block that
never closes; at the terminal sentinel the transformer re-emits the
buffered text as content, and it carries the start marker. -/
theorem c2_counterexample : ¬ claimC2 := by
  intro h
  have hx : ∀ o ∈ runFrames M0
      [Frame.json (contentEvent (S "Hi ༒龘ᐅ broken")), Frame.done],
      ¬ M0.TC_START <:+: outContent o := fun o ho =>
    h M0 [Frame.json (contentEvent (S "Hi ༒龘ᐅ broken")), Frame.done] o ho
      M0.TC_START (by decide)
  exact absurd hx (by decide)

/-- Witness for the amended C2 on a concrete benign stream. -/
theorem c2_amended_witness :
    (∀ tok ∈ tokensOf M0, ¬ tok <:+:
      (([Frame.json (contentEvent (S "hello")), Frame.done]).map frameContent).flatten) ∧
    ∀ o ∈ runFrames M0 [Frame.json (contentEvent (S "hello")), Frame.done],
      ∀ tok ∈ tokensOf M0, ¬ tok <:+: outContent o :=
  ⟨by decide,
   c2_amended M0 [Frame.json (contentEvent (S "hello")), Frame.done]
     (by decide) (by decide)⟩

/- ===== C3: streaming vs the non-stream finisher ===== -/

/-- Feeding a complete response text through the streaming transcoder
one character at a time: each character arrives as its own content
delta, then the terminal sentinel. -/
def charFrames (T : List Char) : List Frame :=
  T.map (fun ch => Frame.json (contentEvent [ch]))

def streamedOfText (M : Markers) (T : List Char) : List Out :=
  runFrames M (charFrames T ++ [Frame.done])

/-- The name and arguments carried by one tool-call JSON entry. -/
def jsonCallNameArgs (j : Json) : List Char × List Char :=
  ((match (j.get (S "function")).bind (fun f => f.get (S "name")) with
    | some (Json.str n) => n
    | _ => []),
   (match (j.get (S "function")).bind (fun f => f.get (S "arguments")) with
    | some (Json.str a) => a
    | _ => []))

def streamCalls (M : Markers) (T : List Char) : List (List Char × List Char) :=
  (outsToolCalls (outsUntilDone (streamedOfText M T))).map jsonCallNameArgs

def streamResidual (M : Markers) (T : List Char) : List Char :=
  outsContent (outsUntilDone (streamedOfText M T))

/-- A non-streaming response body whose primary message carries text T. -/
def c3body (T : List Char) : Json :=
  Json.obj [(S "choices", Json.arr [Json.obj [(S "index", Json.num (S "0")),
    (S "message", Json.obj [(S "role", Json.str (S "assistant")),
      (S "content", Json.str T)]),
    (S "finish_reason", Json.str (S "stop"))]])]

def finishCalls (M : Markers) (T : List Char) : List (List Char × List Char) :=
  (match (primaryMessage (finishNonStream M true (c3body T))).bind
      (fun m => m.get (S "tool_calls")) with
    | some (Json.arr xs) => xs
    | _ => []).map jsonCallNameArgs

def finishResidual (M : Markers) (T : List Char) : List Char :=
  match primaryContentStr (finishNonStream M true (c3body T)) with
  | some s => s
  | none => []

/-- The literal spec sentence: byte-at-a-time streaming and the one-call
finisher always extract the same calls and the same residual content. -/
def claimC3 : Prop :=
  ∀ (M : Markers) (T : List Char),
    streamCalls M T = finishCalls M T ∧ streamResidual M T = finishResidual M T

/-- One delta's shape survives the patch: the patched event carries
exactly the requested content and no tool calls. -/
theorem outContent_patch_event (s t : List Char) :
    outContent (Out.json (patchContent (contentEvent s) t)) = t := rfl

theorem outToolCalls_patch_event (s t : List Char) :
    outToolCalls (Out.json (patchContent (contentEvent s) t)) = [] := rfl

theorem outContent_remove_event (s : List Char) :
    outContent (Out.json (removeDeltaContent (contentEvent s))) = [] := rfl

theorem outToolCalls_remove_event (s : List Char) :
    outToolCalls (Out.json (removeDeltaContent (contentEvent s))) = [] := rfl

theorem envOk_contentEvent (s : List Char) :
    envOk (some (contentEvent s)) = some (contentEvent s) := rfl

theorem outsContent_cons (o : Out) (l : List Out) :
    outsContent (o :: l) = outContent o ++ outsContent l := by
  simp [outsContent]

theorem outsContent_append (l1 l2 : List Out) :
    outsContent (l1 ++ l2) = outsContent l1 ++ outsContent l2 := by
  simp [outsContent]

theorem outsToolCalls_cons (o : Out) (l : List Out) :
    outsToolCalls (o :: l) = outToolCalls o ++ outsToolCalls l := by
  simp [outsToolCalls]

theorem outsToolCalls_nil_of (l : List Out)
    (h : ∀ o ∈ l, outToolCalls o = []) : outsToolCalls l = [] := by
  induction l with
  | nil => rfl
  | cons o l ih =>
    rw [outsToolCalls_cons, h o (List.mem_cons_self o l),
      ih (fun o2 ho2 => h o2 (List.mem_cons_of_mem o ho2))]
    rfl

theorem outsUntilDone_append_done (l1 l2 : List Out)
    (h : ∀ o ∈ l1, o ≠ Out.done) :
    outsUntilDone (l1 ++ (Out.done :: l2)) = l1 ++ [Out.done] := by
  induction l1 with
  | nil => rfl
  | cons o l ih =>
    have ho := h o (List.mem_cons_self o l)
    have ih2 := ih (fun o2 ho2 => h o2 (List.mem_cons_of_mem o ho2))
    cases o with
    | done => exact absurd rfl ho
    | raw r =>
      show Out.raw r :: outsUntilDone (l ++ (Out.done :: l2)) = _
      rw [ih2]
      rfl
    | json v =>
      show Out.json v :: outsUntilDone (l ++ (Out.done :: l2)) = _
      rw [ih2]
      rfl

theorem c3_char_step (M : Markers) (hS : M.TC_START ≠ []) (p : List Char)
    (e : Option Json) (ch : Char)
    (hfree : ¬ M.TC_START <:+: p ++ [ch]) :
    processFrame M ⟨p, false, [], e⟩ (Frame.json (contentEvent [ch])) =
      (⟨(p ++ [ch]).drop (findPartialMatchEndIndex (p ++ [ch]) M.TC_START),
        false, [], some (contentEvent [ch])⟩,
       [if (!((p ++ [ch]).take
            (findPartialMatchEndIndex (p ++ [ch]) M.TC_START)).isEmpty) = true
        then Out.json (patchContent (contentEvent [ch]) ((p ++ [ch]).take
          (findPartialMatchEndIndex (p ++ [ch]) M.TC_START)))
        else Out.json (removeDeltaContent (contentEvent [ch]))]) := by
  have hsplit : splitByMarker (p ++ [ch]) M.TC_START = none :=
    splitByMarker_none hS hfree
  simp only [processFrame]
  rw [show (contentEvent [ch]).get (S "choices") =
    some (Json.arr [Json.obj [(S "index", Json.num (S "0")),
      (S "delta", Json.obj [(S "content", Json.str [ch])]),
      (S "finish_reason", Json.null)]]) from rfl]
  dsimp only
  rw [show ((Json.obj [(S "index", Json.num (S "0")),
      (S "delta", Json.obj [(S "content", Json.str [ch])]),
      (S "finish_reason", Json.null)]).get (S "delta")).bind
      (fun d => d.get (S "content")) = some (Json.str [ch]) from rfl]
  dsimp only
  rw [if_neg (by simp : ¬ (([ch] : List Char).isEmpty = true))]
  rw [if_neg (by simp : ¬ (false = true))]
  rw [hsplit]

theorem c3_scan (M : Markers) (hS : M.TC_START ≠ []) :
    ∀ (rest p : List Char) (e : Option Json),
    ¬ M.TC_START <:+: p ++ rest →
    ∃ p2 e2,
      (foldFrames M (charFrames rest) ⟨p, false, [], e⟩).1 = ⟨p2, false, [], e2⟩ ∧
      ((e2 = e ∧ p2 = p ∧ rest = []) ∨ ∃ s2, e2 = some (contentEvent s2)) ∧
      outsContent (foldFrames M (charFrames rest) ⟨p, false, [], e⟩).2 ++ p2 =
        p ++ rest ∧
      (∀ o ∈ (foldFrames M (charFrames rest) ⟨p, false, [], e⟩).2,
        outToolCalls o = [] ∧ o ≠ Out.done) := by
  intro rest
  induction rest with
  | nil =>
    intro p e _
    exact ⟨p, e, rfl, Or.inl ⟨rfl, rfl, rfl⟩,
      by simp [charFrames, foldFrames_nil, outsContent],
      by simp [charFrames, foldFrames_nil]⟩
  | cons ch chs ih =>
    intro p e h
    have hfree1 : ¬ M.TC_START <:+: p ++ [ch] := fun hx =>
      h (hx.trans ⟨[], chs, by simp⟩)
    have hstep := c3_char_step M hS p e ch hfree1
    rw [show charFrames (ch :: chs) =
      Frame.json (contentEvent [ch]) :: charFrames chs from rfl,
      foldFrames_cons, hstep]
    have hfree2 : ¬ M.TC_START <:+:
        (p ++ [ch]).drop (findPartialMatchEndIndex (p ++ [ch]) M.TC_START) ++ chs := by
      intro hx
      apply h
      have hsuf : (p ++ [ch]).drop
          (findPartialMatchEndIndex (p ++ [ch]) M.TC_START) ++ chs <:+
          (p ++ [ch]) ++ chs := by
        obtain ⟨u, hu⟩ := List.drop_suffix
          (findPartialMatchEndIndex (p ++ [ch]) M.TC_START) (p ++ [ch])
        exact ⟨u, by rw [← List.append_assoc, hu]⟩
      exact hx.trans (by simpa using hsuf.isInfix)
    obtain ⟨p2, e2, hfin, he2, hcont, houts⟩ :=
      ih ((p ++ [ch]).drop (findPartialMatchEndIndex (p ++ [ch]) M.TC_START))
        (some (contentEvent [ch])) hfree2
    have hoc : outContent (if (!((p ++ [ch]).take
        (findPartialMatchEndIndex (p ++ [ch]) M.TC_START)).isEmpty) = true
        then Out.json (patchContent (contentEvent [ch]) ((p ++ [ch]).take
          (findPartialMatchEndIndex (p ++ [ch]) M.TC_START)))
        else Out.json (removeDeltaContent (contentEvent [ch]))) =
        (p ++ [ch]).take (findPartialMatchEndIndex (p ++ [ch]) M.TC_START) := by
      by_cases hq : (!((p ++ [ch]).take
          (findPartialMatchEndIndex (p ++ [ch]) M.TC_START)).isEmpty) = true
      · rw [if_pos hq, outContent_patch_event]
      · rw [if_neg hq, outContent_remove_event]
        cases htk : (p ++ [ch]).take (findPartialMatchEndIndex (p ++ [ch]) M.TC_START) with
        | nil => rfl
        | cons a as => rw [htk] at hq; simp at hq
    refine ⟨p2, e2, by simpa using hfin, ?_, ?_, ?_⟩
    · rcases he2 with ⟨he, _, _⟩ | ⟨s2, hs2⟩
      · exact Or.inr ⟨[ch], he⟩
      · exact Or.inr ⟨s2, hs2⟩
    · rw [List.singleton_append, outsContent_cons, List.append_assoc, hcont, hoc,
        ← List.append_assoc, List.take_append_drop]
      simp
    · intro o ho
      simp only [List.mem_append, List.mem_singleton] at ho
      rcases ho with rfl | ho
      · constructor
        · by_cases hq : (!((p ++ [ch]).take
              (findPartialMatchEndIndex (p ++ [ch]) M.TC_START)).isEmpty) = true
          · rw [if_pos hq, outToolCalls_patch_event]
          · rw [if_neg hq, outToolCalls_remove_event]
        · by_cases hq : (!((p ++ [ch]).take
              (findPartialMatchEndIndex (p ++ [ch]) M.TC_START)).isEmpty) = true
          · rw [if_pos hq]; intro hc; cases hc
          · rw [if_neg hq]; intro hc; cases hc
      · exact houts o ho

theorem foldFrames_append (M : Markers) (fs1 : List Frame) :
    ∀ (fs2 : List Frame) (st : TState),
    foldFrames M (fs1 ++ fs2) st =
      ((foldFrames M fs2 (foldFrames M fs1 st).1).1,
       (foldFrames M fs1 st).2 ++ (foldFrames M fs2 (foldFrames M fs1 st).1).2) := by
  induction fs1 with
  | nil => intro fs2 st; simp [foldFrames_nil]
  | cons f fs ih =>
    intro fs2 st
    rw [show (f :: fs) ++ fs2 = f :: (fs ++ fs2) from rfl, foldFrames_cons, ih,
      foldFrames_cons]
    simp [List.append_assoc]

/-- C3, amended: on a text with no occurrence of the call-start marker,
byte-at-a-time streaming and the one-call finisher agree — both find no
calls, and both leave the text as the residual.  (The unamended claim is
refuted by c3_counterexample: on a complete block with invalid JSON
arguments the finisher leaves the body unchanged while the streaming
path removes the region.) -/
theorem c3_amended (M : Markers) (T : List Char) (hS : M.TC_START ≠ [])
    (hfree : ¬ M.TC_START <:+: T) :
    streamCalls M T = finishCalls M T ∧ streamResidual M T = finishResidual M T := by
  have hfin : finishNonStream M true (c3body T) = c3body T := by
    unfold finishNonStream
    rw [show primaryContentStr (c3body T) = some T from rfl]
    dsimp only
    by_cases hT : T.isEmpty = true
    · rw [if_pos hT]
    · rw [if_neg hT]
      rw [parse_no_start hfree]
      rfl
  have hcalls_fin : finishCalls M T = [] := by
    unfold finishCalls
    rw [hfin]
    rfl
  have hres_fin : finishResidual M T = T := by
    unfold finishResidual
    rw [hfin]
    rfl
  rcases c3_scan M hS T [] none (by simpa using hfree)
    with ⟨p2, e2, hfin1, he2, hcont, houts⟩
  rw [hcalls_fin, hres_fin]
  have hinit : (initTState : TState) = ⟨[], false, [], none⟩ := rfl
  rcases he2 with ⟨he, hp2, hT0⟩ | ⟨s2, hs2⟩
  · subst hT0
    exact ⟨rfl, rfl⟩
  · subst hs2
    have hdone : processFrame M ⟨p2, false, [], some (contentEvent s2)⟩ Frame.done =
        (⟨p2, false, [], some (contentEvent s2)⟩,
         (if (!p2.isEmpty) = true
          then [Out.json (patchContent (contentEvent s2) p2)] else []) ++ [Out.done]) := by
      simp only [processFrame]
      rw [if_neg (by simp : ¬ ((!([] : List Char).isEmpty) = true))]
      rw [envOk_contentEvent]
    have hstream : streamedOfText M T =
        (foldFrames M (charFrames T) ⟨[], false, [], none⟩).2 ++
        ((if (!p2.isEmpty) = true
          then [Out.json (patchContent (contentEvent s2) p2)] else []) ++ [Out.done]) ++
        flushOuts M ⟨p2, false, [], some (contentEvent s2)⟩ := by
      unfold streamedOfText runFrames
      rw [hinit, foldFrames_append, hfin1, foldFrames_cons, hdone, foldFrames_nil]
      simp
    have hnodone : ∀ o ∈ (foldFrames M (charFrames T) ⟨[], false, [], none⟩).2 ++
        (if (!p2.isEmpty) = true
         then [Out.json (patchContent (contentEvent s2) p2)] else []),
        o ≠ Out.done := by
      intro o ho
      rw [List.mem_append] at ho
      rcases ho with ho | ho
      · exact (houts o ho).2
      · by_cases hq : (!p2.isEmpty) = true
        · rw [if_pos hq] at ho
          simp only [List.mem_singleton] at ho
          subst ho
          intro hc; cases hc
        · rw [if_neg hq] at ho
          simp at ho
    have hud : outsUntilDone (streamedOfText M T) =
        ((foldFrames M (charFrames T) ⟨[], false, [], none⟩).2 ++
         (if (!p2.isEmpty) = true
          then [Out.json (patchContent (contentEvent s2) p2)] else [])) ++ [Out.done] := by
      rw [hstream]
      have hassoc : (foldFrames M (charFrames T) ⟨[], false, [], none⟩).2 ++
          ((if (!p2.isEmpty) = true
            then [Out.json (patchContent (contentEvent s2) p2)] else []) ++ [Out.done]) ++
          flushOuts M ⟨p2, false, [], some (contentEvent s2)⟩ =
          ((foldFrames M (charFrames T) ⟨[], false, [], none⟩).2 ++
           (if (!p2.isEmpty) = true
            then [Out.json (patchContent (contentEvent s2) p2)] else [])) ++
          (Out.done :: flushOuts M ⟨p2, false, [], some (contentEvent s2)⟩) := by
        simp
      rw [hassoc]
      exact outsUntilDone_append_done _ _ hnodone
    constructor
    · unfold streamCalls
      have h0 : outsToolCalls (((foldFrames M (charFrames T) ⟨[], false, [], none⟩).2 ++
          (if (!p2.isEmpty) = true
           then [Out.json (patchContent (contentEvent s2) p2)] else [])) ++ [Out.done]) = [] :=
        outsToolCalls_nil_of _ (by
          intro o ho
          simp only [List.mem_append, List.mem_singleton] at ho
          rcases ho with (ho | ho) | rfl
          · exact (houts o ho).1
          · by_cases hq : (!p2.isEmpty) = true
            · rw [if_pos hq] at ho
              simp only [List.mem_singleton] at ho
              subst ho
              exact outToolCalls_patch_event s2 p2
            · rw [if_neg hq] at ho
              simp at ho
          · rfl)
      rw [hud, h0]
      rfl
    · unfold streamResidual
      rw [hud, outsContent_append, outsContent_append]
      have hpf : outsContent (if (!p2.isEmpty) = true
          then [Out.json (patchContent (contentEvent s2) p2)] else []) = p2 := by
        by_cases hq : (!p2.isEmpty) = true
        · rw [if_pos hq]
          simp [outsContent, outContent_patch_event]
        · rw [if_neg hq]
          cases hp2c : p2 with
          | nil => simp [outsContent]
          | cons a as => rw [hp2c] at hq; simp at hq
      rw [hpf]
      rw [show outsContent [Out.done] = [] from rfl, List.append_nil]
      simpa using hcont

/-- The text of a complete tool-call block whose arguments are not valid
JSON. -/
def c3text : List Char := S "༒龘ᐅ ࿇▸t◂࿇ ࿇▹oops◃࿇ ᐊ龘༒"

/-- C3 counterexample: on a block with invalid JSON arguments the
finisher reports no calls and leaves the body unchanged (residual is the
full marker text), while the byte-at-a-time stream swallows the region
and delivers an empty residual. -/
theorem c3_counterexample : ¬ claimC3 := by
  intro h
  exact absurd (h M0 c3text).2 (by decide)

/-- Witness for the amended C3 on a marker-free text. -/
theorem c3_amended_witness :
    ¬ M0.TC_START <:+: S "hello" ∧
    (streamCalls M0 (S "hello") = finishCalls M0 (S "hello") ∧
     streamResidual M0 (S "hello") = finishResidual M0 (S "hello")) :=
  ⟨by decide, c3_amended M0 (S "hello") (by decide) (by decide)⟩

/- ===== Request transformation (src/index.js 217-381, 690-694) ===== -/

/-- One structured tool call on an assistant message (only the fields
the transform reads). -/
structure TCall where
  name : List Char
  arguments : List Char
deriving DecidableEq

/-- One chat message (string-or-absent content, as the transform
assumes). -/
structure ChatMessage where
  role : List Char
  content : Option (List Char)
  tool_calls : Option (List TCall)
  name : Option (List Char)
  tool_call_id : Option (List Char)
deriving DecidableEq

/-- One tool definition (the fields getSystemPrompt reads from
t.function). -/
structure ToolDef where
  name : List Char
  description : Option (List Char)
  parameters : Json

/-- The request fields the transform reads. -/
structure ChatRequest where
  messages : List ChatMessage
  tools : List ToolDef

/-- The transformed request: `delete newRequest.tools` and
`delete newRequest.tool_choice` always run, so the output carries no
tools field (modelled as none). -/
structure OutRequest where
  messages : List ChatMessage
  tools : Option (List ToolDef)

/-- `a || b` on string-or-absent values (empty string is falsy). -/
def orElse (a : Option (List Char)) (b : List Char) : List Char :=
  match a with
  | some s => if s.isEmpty then b else s
  | none => b

/-- hasToolHistory (src/index.js 690-694). -/
def hasToolHistory (req : ChatRequest) : Bool :=
  req.messages.any (fun m =>
    m.role == S "tool" ||
    (m.role == S "assistant" &&
      (match m.tool_calls with
       | some (_ :: _) => true
       | _ => false)))

/-- Array.prototype.join(sep). -/
def joinSep (sep : List Char) : List (List Char) → List Char
  | [] => []
  | [x] => x
  | x :: y :: rest => x ++ sep ++ joinSep sep (y :: rest)

/-- mergeAdjacentMessages' loop (src/index.js 236-253): `current`
accumulates; an equal-role message folds its content in with a blank
line; a different role pushes `current`. -/
def mergeGo (current : ChatMessage) : List ChatMessage → List ChatMessage
  | [] => [current]
  | msg :: rest =>
    if msg.role == current.role then
      mergeGo { current with
        content := some (current.content.getD [] ++ S "\n\n" ++ msg.content.getD []) }
        rest
    else
      current :: mergeGo msg rest

def mergeAdjacentMessages : List ChatMessage → List ChatMessage
  | [] => []
  | m0 :: rest => mergeGo m0 rest

/-- SCIFI_TOOL_DEF (src/index.js 217-232). -/
def SCIFI_TOOL_DEF : ToolDef :=
  ⟨S "hyper_dimensional_resonance_calibrator",
   some (S "Calibrates cross-dimensional subspace resonance frequencies to stabilize the quantum flux of Einstein-Rosen bridges. Use only when dimensional rift fluctuation values exceed 5.0."),
   Json.obj [(S "type", Json.str (S "object")),
     (S "properties", Json.obj
       [(S "dimension_id", Json.obj [(S "type", Json.str (S "string")),
          (S "description", Json.str (S "Target dimension coordinates, e.g. 'C-137'"))]),
        (S "flux_threshold", Json.obj [(S "type", Json.str (S "number")),
          (S "description", Json.str (S "Maximum allowable flux fluctuation threshold"))]),
        (S "stabilization_mode", Json.obj [(S "type", Json.str (S "string")),
          (S "enum", Json.arr [Json.str (S "static"), Json.str (S "dynamic"),
            Json.str (S "hybrid")]),
          (S "default", Json.str (S "static"))])]),
     (S "required", Json.arr [Json.str (S "dimension_id"),
        Json.str (S "flux_threshold")])]⟩

/-- One entry of the Available Tools list (src/index.js 137-138). -/
def toolLine (t : ToolDef) : List Char :=
  S "- **" ++ t.name ++ S "**: " ++ orElse t.description (S "No description") ++
  S "\n  Parameters: " ++ stringify t.parameters

/-- getSystemPrompt (src/index.js 124-174). -/
def getSystemPrompt (M : Markers) (tools : List ToolDef) : List Char :=
  trimJs (
    S "\n## Tool Usage Protocol\n\nYou are equipped with the following functional tools. You must use them to fulfill user requests when appropriate.\n\n### Available Tools\n" ++
    joinNl (tools.map toolLine) ++
    S "\n\n### ⚠️ IMPORTANT: Protocol for Invoking Tools\n\nTo call a tool, you **MUST** follow this strict protocol. \n**DO NOT** return raw JSON. \n**DO NOT** use Markdown code blocks (like ```json).\nYou **MUST** wrap the function call in the exact delimiters shown below.\n\n#### ✅ Correct Format Example (Demonstration)\n\nUser: \"What's the weather in Tokyo?\"\nAssistant:\n" ++
    M.TC_START ++ S "\n" ++
    M.NAME_START ++ S "get_current_weather" ++ M.NAME_END ++ S "\n" ++
    M.ARGS_START ++ S "\x7b\"location\": \"Tokyo\", \"unit\": \"celsius\"\x7d" ++
    M.ARGS_END ++ S "\n" ++
    M.TC_END ++
    S "\n\n#### ❌ Incorrect Formats (Do NOT do this)\n- \x7b\"name\": \"get_current_weather\", ...\x7d  (Raw JSON is forbidden)\n- ```json ... ``` (Markdown blocks are forbidden)\n\n### Your Output Template\nWhen you decide to call a tool, append this block to the END of your response:\n\n" ++
    M.TC_START ++ S "\n" ++
    M.NAME_START ++ S "function_name" ++ M.NAME_END ++ S "\n" ++
    M.ARGS_START ++ S "\x7b\"param_key\": \"param_value\"\x7d" ++ M.ARGS_END ++ S "\n" ++
    M.TC_END ++
    S "\n\n### Operational Rules\n1. **Priority**: These formatting rules override any style guidelines regarding \"code blocks\" or \"json output\" in other system prompts.\n2. **Placement**: Tool calls must appear at the very **END** of your message.\n3. **Integrity**: Copy the start/end delimiters EXACTLY as shown. They are specialized characters.\n4. **Validity**: The arguments inside " ++
    M.ARGS_START ++ S "..." ++ M.ARGS_END ++ S " must be valid, parseable JSON.\n")

/-- The marker-delimited text of one structured call, as appended to an
assistant message when tools are enabled (src/index.js 299). -/
def tcText (M : Markers) (tc : TCall) : List Char :=
  S "\n" ++ M.TC_START ++ S "\n" ++ M.NAME_START ++ tc.name ++ M.NAME_END ++
  S "\n" ++ M.ARGS_START ++ tc.arguments ++ M.ARGS_END ++ S "\n" ++ M.TC_END

/-- The per-message rewrite of the transform's message loop
(src/index.js 284-330). -/
def procMsg (M : Markers) (hasTools : Bool) (prompt : List Char)
    (msg : ChatMessage) : ChatMessage :=
  if msg.role == S "system" then
    ⟨S "system",
     some (msg.content.getD [] ++
       (if prompt.isEmpty then [] else S "\n\n" ++ prompt)),
     none, none, none⟩
  else if msg.role == S "assistant" &&
      (match msg.tool_calls with
       | some (_ :: _) => true
       | _ => false) then
    let tcs := msg.tool_calls.getD []
    ⟨S "assistant",
     some (msg.content.getD [] ++
       (if hasTools then (tcs.map (tcText M)).flatten
        else S "\n\n[Called tools: " ++
          joinSep (S ", ") ((tcs.map TCall.name).filter (fun n => !n.isEmpty)) ++
          S "]")),
     none, none, none⟩
  else if msg.role == S "tool" then
    let nm := orElse msg.name (orElse msg.tool_call_id (S "unknown"))
    let result := match msg.content with
      | some s => s
      | none => S "undefined"
    if hasTools then
      ⟨S "user", some (M.RESULT_START ++ S "[" ++ nm ++ S "]\n" ++ result ++
        M.RESULT_END), none, none, none⟩
    else
      ⟨S "user", some (S "[Tool result: " ++ nm ++ S "]\n" ++ result),
       none, none, none⟩
  else msg

/-- JSON.stringify of the fictional call arguments (5.0 prints as 5). -/
def fakeCallArgs : List Char :=
  S "\x7b\"dimension_id\":\"C-137\",\"flux_threshold\":5,\"stabilization_mode\":\"static\"\x7d"

def fakeAssistantContent (M : Markers) : List Char :=
  S "Detected abnormal dimensional rift fluctuation (current value 5.2), immediate calibration of C-137 quadrant stability required.\n" ++
  M.TC_START ++ S "\n" ++
  M.NAME_START ++ S "hyper_dimensional_resonance_calibrator" ++ M.NAME_END ++ S "\n" ++
  M.ARGS_START ++ fakeCallArgs ++ M.ARGS_END ++ S "\n" ++
  M.TC_END

def fakeResultContent : List Char :=
  S "\x7b\"status\":\"calibrated\",\"new_flux_index\":0.42,\"entropy_delta\":\"-3.14e-9\",\"message\":\"Resonance stabilized.\"\x7d"

def fakeToolResult (M : Markers) : List Char :=
  M.RESULT_START ++ S "[hyper_dimensional_resonance_calibrator]\n" ++
  fakeResultContent ++ M.RESULT_END

def fakeAssistantMsg (M : Markers) : ChatMessage :=
  ⟨S "assistant", some (fakeAssistantContent M), none, none, none⟩

def fakeUserMsg (M : Markers) : ChatMessage :=
  ⟨S "user", some (fakeToolResult M), none, none, none⟩

/-- transformRequest (src/index.js 260-381). -/
def transformRequest (M : Markers) (hasTools : Bool) (req : ChatRequest) :
    OutRequest :=
  let rawMessages := req.messages
  let historyExists := hasToolHistory req
  let shouldInjectOneShot := hasTools && !historyExists &&
    (match rawMessages.getLast? with
     | some m => m.role == S "user"
     | none => false)
  let activeTools := if shouldInjectOneShot then req.tools ++ [SCIFI_TOOL_DEF]
    else req.tools
  let toolSystemPrompt := if hasTools && activeTools.length != 0
    then getSystemPrompt M activeTools else []
  let outMessages0 := rawMessages.map (procMsg M hasTools toolSystemPrompt)
  let hasSystem := rawMessages.any (fun m => m.role == S "system")
  let outMessages1 := if !hasSystem && !toolSystemPrompt.isEmpty
    then ⟨S "system", some toolSystemPrompt, none, none, none⟩ :: outMessages0
    else outMessages0
  let outMessages2 := if shouldInjectOneShot && outMessages1.length != 0 then
      match outMessages1.getLast? with
      | some lastOut =>
        if lastOut.role == S "user" then
          outMessages1.dropLast ++ [fakeAssistantMsg M, fakeUserMsg M, lastOut]
        else outMessages1
      | none => outMessages1
    else outMessages1
  ⟨mergeAdjacentMessages outMessages2, none⟩

theorem trimJs_ne_nil {s : List Char} {c : Char} (hm : c ∈ s)
    (hw : isJsWs c = false) : trimJs s ≠ [] := by
  intro h
  unfold trimJs at h
  rw [List.reverse_eq_nil_iff, List.dropWhile_eq_nil_iff] at h
  have hx : c ∈ s.dropWhile isJsWs := by
    have hsplit : c ∈ s.takeWhile isJsWs ++ s.dropWhile isJsWs := by
      rw [List.takeWhile_append_dropWhile]
      exact hm
    rcases List.mem_append.mp hsplit with hx | hx
    · have := List.mem_takeWhile_imp hx
      rw [hw] at this
      cases this
    · exact hx
  have := h c (List.mem_reverse.mpr hx)
  rw [hw] at this
  cases this

theorem getSystemPrompt_ne_nil (M : Markers) (tools : List ToolDef) :
    getSystemPrompt M tools ≠ [] := by
  have hA : '#' ∈ S "\n## Tool Usage Protocol\n\nYou are equipped with the following functional tools. You must use them to fulfill user requests when appropriate.\n\n### Available Tools\n" := by
    decide
  unfold getSystemPrompt
  refine trimJs_ne_nil ?_ (show isJsWs '#' = false by decide)
  repeat apply List.mem_append_left
  exact hA

theorem getSystemPrompt_isEmpty (M : Markers) (tools : List ToolDef) :
    (getSystemPrompt M tools).isEmpty = false := by
  cases hgp : getSystemPrompt M tools with
  | nil => exact absurd hgp (getSystemPrompt_ne_nil M tools)
  | cons a as => rfl

/-- The literal spec sentence for the one-shot scenario: the fabricated
assistant and user turns remain separate messages immediately before the
original final user message, and the tools field is gone. -/
def claimC4 : Prop :=
  ∀ (M : Markers) (req : ChatRequest),
    req.tools ≠ [] →
    hasToolHistory req = false →
    ∀ last, req.messages.getLast? = some last → last.role = S "user" →
    (transformRequest M true req).tools = none ∧
    ∃ pre, (transformRequest M true req).messages =
      pre ++ [fakeAssistantMsg M, fakeUserMsg M, last]

def c4tool : ToolDef :=
  ⟨S "get_time", some (S "Returns the time"),
   Json.obj [(S "type", Json.str (S "object"))]⟩

def c4last : ChatMessage := ⟨S "user", some (S "hi"), none, none, none⟩

def c4req : ChatRequest := ⟨[c4last], [c4tool]⟩

set_option maxRecDepth 100000 in
/-- C4 counterexample: on the canonical one-shot request the merge pass
collapses the fabricated user turn into the real final user message, so
the pair does not survive as separate messages. -/
theorem c4_counterexample : ¬ claimC4 := by
  intro h
  have hres := h M0 c4req (by intro hc; cases hc) (by rfl) c4last (by rfl) (by rfl)
  obtain ⟨-, pre, hpre⟩ := hres
  have hlen := congrArg List.length hpre
  rw [List.length_append] at hlen
  have hL : (transformRequest M0 true c4req).messages.length = 3 := by decide
  rw [hL] at hlen
  have hpre0 : pre = [] := by
    have hp0 : pre.length = 0 := by
      simp only [List.length_cons, List.length_nil] at hlen
      omega
    exact List.length_eq_zero.mp hp0
  subst hpre0
  rw [List.nil_append] at hpre
  exact absurd hpre (by decide)

/-- C4, amended: on the canonical one-shot request (a single user turn
plus one tool), the transform prepends the protocol system prompt and
the fabricated assistant call, but the merge pass folds the fabricated
tool-result user turn into the real user message — one user message
whose text is the fictional result, a blank line, then the original
text.  The fictional tool's schema survives only prompt-rendered inside
the system text; the structured tools field is deleted. -/
theorem c4_amended (M : Markers) (u : List Char) (t : ToolDef) :
    transformRequest M true ⟨[⟨S "user", some u, none, none, none⟩], [t]⟩ =
      ⟨[⟨S "system", some (getSystemPrompt M [t, SCIFI_TOOL_DEF]), none, none, none⟩,
        fakeAssistantMsg M,
        ⟨S "user", some (fakeToolResult M ++ S "\n\n" ++ u), none, none, none⟩],
       none⟩ := by
  unfold transformRequest
  rw [show hasToolHistory ⟨[⟨S "user", some u, none, none, none⟩], [t]⟩ = false from rfl]
  dsimp only
  rw [show (match ([(⟨S "user", some u, none, none, none⟩ : ChatMessage)] :
      List ChatMessage).getLast? with
      | some m => m.role == S "user"
      | none => false) = true from rfl]
  rw [show (true && !false && true : Bool) = true from rfl]
  rw [show (([(⟨S "user", some u, none, none, none⟩ : ChatMessage)] :
      List ChatMessage).any fun m => m.role == S "system") = false from rfl]
  rw [show ([t] ++ [SCIFI_TOOL_DEF] : List ToolDef) = [t, SCIFI_TOOL_DEF] from rfl]
  rw [show (if true = true then ([t, SCIFI_TOOL_DEF] : List ToolDef) else [t]) =
    [t, SCIFI_TOOL_DEF] from rfl]
  rw [show (([t, SCIFI_TOOL_DEF] : List ToolDef).length != 0) = true from rfl]
  rw [show (true && true : Bool) = true from rfl]
  rw [show (if true = true then getSystemPrompt M [t, SCIFI_TOOL_DEF] else []) =
    getSystemPrompt M [t, SCIFI_TOOL_DEF] from rfl]
  rw [getSystemPrompt_isEmpty M [t, SCIFI_TOOL_DEF]]
  rw [show (!false && !false : Bool) = true from rfl]
  simp only [if_true]
  rw [show List.map (procMsg M true (getSystemPrompt M [t, SCIFI_TOOL_DEF]))
      [(⟨S "user", some u, none, none, none⟩ : ChatMessage)] =
      [⟨S "user", some u, none, none, none⟩] from rfl]
  rw [show (((⟨S "system", some (getSystemPrompt M [t, SCIFI_TOOL_DEF]), none, none, none⟩ :
        ChatMessage) ::
      [(⟨S "user", some u, none, none, none⟩ : ChatMessage)]).length != 0) = true from rfl]
  rw [show (true && true : Bool) = true from rfl]
  simp only [if_true]
  rw [show ((⟨S "system", some (getSystemPrompt M [t, SCIFI_TOOL_DEF]), none, none, none⟩ :
        ChatMessage) ::
      [(⟨S "user", some u, none, none, none⟩ : ChatMessage)]).getLast? =
      some ⟨S "user", some u, none, none, none⟩ from rfl]
  dsimp only
  rw [show ((S "user" : List Char) == S "user") = true from rfl]
  simp only [if_true]
  rfl

/- ===== C8: tool-disabled history cleanup ===== -/

theorem prefix_through_char {c : Char} {b : List Char} :
    ∀ (a t : List Char), c ∉ t → t <+: a ++ c :: b → t <+: a := by
  intro a
  induction a with
  | nil =>
    intro t hc h
    cases t with
    | nil => exact List.nil_prefix
    | cons t0 ts =>
      rw [List.nil_append, List.cons_prefix_cons] at h
      obtain ⟨h1, -⟩ := h
      subst h1
      exact absurd (List.mem_cons_self t0 ts) hc
  | cons a0 as ih =>
    intro t hc h
    cases t with
    | nil => exact List.nil_prefix
    | cons t0 ts =>
      rw [List.cons_append, List.cons_prefix_cons] at h
      obtain ⟨h1, h2⟩ := h
      subst h1
      exact List.cons_prefix_cons.mpr
        ⟨rfl, ih ts (fun hm => hc (List.mem_cons_of_mem _ hm)) h2⟩

theorem infix_through_char {c : Char} {b : List Char} :
    ∀ (a t : List Char), c ∉ t → t <:+: a ++ c :: b → t <:+: a ∨ t <:+: b := by
  intro a
  induction a with
  | nil =>
    intro t hc h
    rw [List.nil_append, List.infix_cons_iff] at h
    rcases h with h | h
    · cases t with
      | nil => exact Or.inl List.nil_infix
      | cons t0 ts =>
        rw [List.cons_prefix_cons] at h
        obtain ⟨h1, -⟩ := h
        subst h1
        exact absurd (List.mem_cons_self t0 ts) hc
    · exact Or.inr h
  | cons a0 as ih =>
    intro t hc h
    rw [List.cons_append, List.infix_cons_iff] at h
    rcases h with h | h
    · left
      cases t with
      | nil => exact List.nil_infix
      | cons t0 ts =>
        rw [List.cons_prefix_cons] at h
        obtain ⟨h1, h2⟩ := h
        subst h1
        exact (List.cons_prefix_cons.mpr ⟨rfl,
          prefix_through_char as ts (fun hm => hc (List.mem_cons_of_mem _ hm)) h2⟩).isInfix
    · rcases ih t hc h with h2 | h2
      · left
        obtain ⟨x, y, hxy⟩ := h2
        exact ⟨a0 :: x, y, by simp [hxy]⟩
      · exact Or.inr h2

theorem infix_through_seps : ∀ (g : List Char), g ≠ [] →
    ∀ (a b t : List Char), (∀ x ∈ g, x ∉ t) → t <:+: a ++ (g ++ b) →
    t <:+: a ∨ t <:+: b := by
  intro g
  induction g with
  | nil => intro hg; exact absurd rfl hg
  | cons g0 gs ih =>
    intro _ a b t hch h
    rw [show (g0 :: gs) ++ b = g0 :: (gs ++ b) from rfl] at h
    rcases infix_through_char a t (hch g0 (List.mem_cons_self g0 gs)) h with h2 | h2
    · exact Or.inl h2
    · cases gs with
      | nil => exact Or.inr (by simpa using h2)
      | cons g1 gs2 =>
        rcases ih (by simp) [] b t (fun x hx => hch x (List.mem_cons_of_mem _ hx))
            (by simpa using h2) with h3 | h3
        · obtain ⟨x, y, hxy⟩ := h3
          rcases List.append_eq_nil.mp hxy with ⟨hxy1, hxy2⟩
          rcases List.append_eq_nil.mp hxy1 with ⟨-, ht⟩
          subst ht
          exact Or.inr List.nil_infix
        · exact Or.inr h3

theorem not_infix_ascii {t s : List Char} (hne : t ≠ [])
    (hP : ∀ x ∈ t, 0x7F < x.toNat) (hs : ∀ x ∈ s, x.toNat ≤ 0x7F) :
    ¬ t <:+: s := by
  intro h
  obtain ⟨x, y, hxy⟩ := h
  cases t with
  | nil => exact hne rfl
  | cons t0 ts =>
    have hmem : t0 ∈ s := by
      rw [← hxy]
      exact List.mem_append.mpr (Or.inl (List.mem_append.mpr
        (Or.inr (List.mem_cons_self _ _))))
    have h1 := hP t0 (List.mem_cons_self t0 ts)
    have h2 := hs t0 hmem
    omega

theorem sep_not_mem {t g : List Char} (hP : ∀ x ∈ t, 0x7F < x.toNat)
    (hg : ∀ x ∈ g, x.toNat ≤ 0x7F) : ∀ x ∈ g, x ∉ t := by
  intro x hx hmem
  have := hP x hmem
  have := hg x hx
  omega

theorem not_infix_joinSep {t : List Char} (hne : t ≠ [])
    (hsep : ∀ x ∈ S ", ", x ∉ t) :
    ∀ (names : List (List Char)), (∀ n ∈ names, ¬ t <:+: n) →
    ¬ t <:+: joinSep (S ", ") names := by
  intro names
  induction names with
  | nil =>
    intro _ h
    obtain ⟨x, y, hxy⟩ := h
    rcases List.append_eq_nil.mp hxy with ⟨hxy1, -⟩
    rcases List.append_eq_nil.mp hxy1 with ⟨-, ht⟩
    exact hne ht
  | cons n0 rest ih =>
    cases rest with
    | nil => exact fun h hbad => h n0 (List.mem_cons_self _ _) hbad
    | cons n1 rest2 =>
      intro h hbad
      rw [show joinSep (S ", ") (n0 :: n1 :: rest2) =
        n0 ++ (S ", " ++ joinSep (S ", ") (n1 :: rest2)) from by
          rw [joinSep]; simp [List.append_assoc]] at hbad
      rcases infix_through_seps (S ", ") (by decide) n0
          (joinSep (S ", ") (n1 :: rest2)) t hsep hbad with h2 | h2
      · exact h n0 (List.mem_cons_self _ _) h2
      · exact ih (fun n hn => h n (List.mem_cons_of_mem _ hn)) h2

/-- Tokens of a marker set are nonempty and wholly non-ASCII (true of
every generated marker set; the glue text the transform adds is ASCII). -/
def NonAsciiTok (M : Markers) : Prop :=
  ∀ tok ∈ tokensOf M, tok ≠ [] ∧ ∀ x ∈ tok, 0x7F < x.toNat

/-- Hygiene of one incoming message: no delimiter token occurs in its
text fields, and a tool_calls field is only carried, nonempty, by an
assistant message. -/
def MsgClean (M : Markers) (m : ChatMessage) : Prop :=
  (∀ tok ∈ tokensOf M, ¬ tok <:+: m.content.getD []) ∧
  (∀ tok ∈ tokensOf M, ¬ tok <:+: m.name.getD []) ∧
  (∀ tok ∈ tokensOf M, ¬ tok <:+: m.tool_call_id.getD []) ∧
  (∀ tcs, m.tool_calls = some tcs →
    ∀ tc ∈ tcs, ∀ tok ∈ tokensOf M, ¬ tok <:+: tc.name) ∧
  (m.tool_calls = none ∨
    (m.role = S "assistant" ∧ ∃ tc tcs, m.tool_calls = some (tc :: tcs)))

/-- What the claim asks of an outgoing message. -/
def GoodMsg (M : Markers) (m : ChatMessage) : Prop :=
  m.tool_calls = none ∧ ∀ tok ∈ tokensOf M, ¬ tok <:+: m.content.getD []

theorem orElse_eq (a : Option (List Char)) (b : List Char) :
    orElse a b = a.getD [] ∨ orElse a b = b := by
  cases a with
  | none => exact Or.inr rfl
  | some s =>
    by_cases hse : s.isEmpty = true
    · exact Or.inr (show (if s.isEmpty = true then b else s) = b by rw [if_pos hse])
    · exact Or.inl (show (if s.isEmpty = true then b else s) = s by rw [if_neg hse])

theorem contentOr_eq (a : Option (List Char)) :
    (match a with
     | some s => s
     | none => S "undefined") = a.getD [] ∨
    (match a with
     | some s => s
     | none => S "undefined") = S "undefined" := by
  cases a with
  | some s => exact Or.inl rfl
  | none => exact Or.inr rfl

theorem procMsg_good (M : Markers) (hM : NonAsciiTok M) (m : ChatMessage)
    (hc : MsgClean M m) : GoodMsg M (procMsg M false [] m) := by
  obtain ⟨hcc, hcn, hci, hctc, hwf⟩ := hc
  by_cases h1 : (m.role == S "system") = true
  · have hpf : procMsg M false [] m =
        ⟨S "system", some (m.content.getD [] ++ []), none, none, none⟩ := by
      unfold procMsg
      rw [if_pos h1]
      rfl
    rw [hpf]
    refine ⟨rfl, ?_⟩
    intro tok htok hbad
    rw [List.append_nil] at hbad
    exact hcc tok htok hbad
  · by_cases h2 : (m.role == S "assistant" &&
        (match m.tool_calls with
         | some (_ :: _) => true
         | _ => false)) = true
    · cases hmt : m.tool_calls with
      | none => rw [hmt] at h2; simp at h2
      | some tcs =>
        cases tcs with
        | nil => rw [hmt] at h2; simp at h2
        | cons tc0 tcr =>
          have hpf : procMsg M false [] m =
              ⟨S "assistant", some (m.content.getD [] ++
                (S "\n\n[Called tools: " ++
                 joinSep (S ", ")
                   (((tc0 :: tcr).map TCall.name).filter (fun n => !n.isEmpty)) ++
                 S "]")), none, none, none⟩ := by
            unfold procMsg
            rw [if_neg h1, if_pos h2, hmt]
            rfl
          rw [hpf]
          refine ⟨rfl, ?_⟩
          intro tok htok hbad
          obtain ⟨hne, hna⟩ := hM tok htok
          have hsep1 := sep_not_mem hna
            (show ∀ x ∈ S "\n\n[Called tools: ", x.toNat ≤ 0x7F by decide)
          have hsep2 := sep_not_mem hna
            (show ∀ x ∈ S ", ", x.toNat ≤ 0x7F by decide)
          have hsep3 := sep_not_mem hna
            (show ∀ x ∈ S "]", x.toNat ≤ 0x7F by decide)
          rw [show m.content.getD [] ++
              (S "\n\n[Called tools: " ++
               joinSep (S ", ")
                 (((tc0 :: tcr).map TCall.name).filter (fun n => !n.isEmpty)) ++
               S "]") = m.content.getD [] ++
              (S "\n\n[Called tools: " ++
               (joinSep (S ", ")
                 (((tc0 :: tcr).map TCall.name).filter (fun n => !n.isEmpty)) ++
                (S "]" ++ []))) from by simp] at hbad
          rcases infix_through_seps (S "\n\n[Called tools: ") (by decide) _ _ tok
              hsep1 hbad with h3 | h3
          · exact hcc tok htok h3
          · rcases infix_through_seps (S "]") (by decide) _ [] tok hsep3 h3
              with h4 | h4
            · refine not_infix_joinSep hne hsep2 _ ?_ h4
              intro n hn hbadn
              obtain ⟨hn1, -⟩ := List.mem_filter.mp hn
              obtain ⟨tc, htc, rfl⟩ := List.mem_map.mp hn1
              exact hctc (tc0 :: tcr) hmt tc htc tok htok hbadn
            · obtain ⟨x, y, hxy⟩ := h4
              rcases List.append_eq_nil.mp hxy with ⟨hxy1, -⟩
              rcases List.append_eq_nil.mp hxy1 with ⟨-, ht⟩
              exact hne ht
    · by_cases h3 : (m.role == S "tool") = true
      · have hpf : procMsg M false [] m =
            ⟨S "user", some (S "[Tool result: " ++
              orElse m.name (orElse m.tool_call_id (S "unknown")) ++ S "]\n" ++
              (match m.content with
               | some s => s
               | none => S "undefined")), none, none, none⟩ := by
          unfold procMsg
          rw [if_neg h1, if_neg h2, if_pos h3]
          rfl
        rw [hpf]
        refine ⟨rfl, ?_⟩
        intro tok htok hbad
        obtain ⟨hne, hna⟩ := hM tok htok
        have hsep1 := sep_not_mem hna
          (show ∀ x ∈ S "[Tool result: ", x.toNat ≤ 0x7F by decide)
        have hsep2 := sep_not_mem hna
          (show ∀ x ∈ S "]\n", x.toNat ≤ 0x7F by decide)
        rw [show S "[Tool result: " ++
            orElse m.name (orElse m.tool_call_id (S "unknown")) ++ S "]\n" ++
            (match m.content with
             | some s => s
             | none => S "undefined") = [] ++ (S "[Tool result: " ++
            (orElse m.name (orElse m.tool_call_id (S "unknown")) ++
             (S "]\n" ++ (match m.content with
               | some s => s
               | none => S "undefined")))) from by simp] at hbad
        rcases infix_through_seps (S "[Tool result: ") (by decide) [] _ tok
            hsep1 hbad with h4 | h4
        · obtain ⟨x, y, hxy⟩ := h4
          rcases List.append_eq_nil.mp hxy with ⟨hxy1, -⟩
          rcases List.append_eq_nil.mp hxy1 with ⟨-, ht⟩
          exact hne ht
        · rcases infix_through_seps (S "]\n") (by decide) _ _ tok hsep2 h4
            with h5 | h5
          · rcases orElse_eq m.name (orElse m.tool_call_id (S "unknown")) with he | he
            · rw [he] at h5
              exact hcn tok htok h5
            · rw [he] at h5
              rcases orElse_eq m.tool_call_id (S "unknown") with he2 | he2
              · rw [he2] at h5
                exact hci tok htok h5
              · rw [he2] at h5
                exact not_infix_ascii hne hna (by decide) h5
          · rcases contentOr_eq m.content with he | he
            · rw [he] at h5
              exact hcc tok htok h5
            · rw [he] at h5
              exact not_infix_ascii hne hna (by decide) h5
      · have hpf : procMsg M false [] m = m := by
          unfold procMsg
          rw [if_neg h1, if_neg h2, if_neg h3]
        rw [hpf]
        refine ⟨?_, hcc⟩
        rcases hwf with hwf | ⟨hrole, tc, tcs, hmt⟩
        · exact hwf
        · exfalso
          apply h2
          rw [hmt, hrole]
          simp

theorem mergeGo_good (M : Markers) (hM : NonAsciiTok M) :
    ∀ (rest : List ChatMessage) (cur : ChatMessage),
    GoodMsg M cur → (∀ m ∈ rest, GoodMsg M m) →
    ∀ m2 ∈ mergeGo cur rest, GoodMsg M m2 := by
  intro rest
  induction rest with
  | nil =>
    intro cur hcur _ m2 hm2
    simp only [mergeGo, List.mem_singleton] at hm2
    subst hm2
    exact hcur
  | cons msg rest2 ih =>
    intro cur hcur hrest m2 hm2
    rw [mergeGo] at hm2
    by_cases hr : (msg.role == cur.role) = true
    · rw [if_pos hr] at hm2
      refine ih { cur with content := some (cur.content.getD [] ++ S "\n\n" ++
          msg.content.getD []) } ⟨hcur.1, ?_⟩
        (fun m hm => hrest m (List.mem_cons_of_mem _ hm)) m2 hm2
      intro tok htok hbad
      obtain ⟨hne, hna⟩ := hM tok htok
      have hsep := sep_not_mem hna
        (show ∀ x ∈ S "\n\n", x.toNat ≤ 0x7F by decide)
      have hbad2 : tok <:+: cur.content.getD [] ++ (S "\n\n" ++ msg.content.getD []) := by
        rw [← List.append_assoc]
        exact hbad
      rcases infix_through_seps (S "\n\n") (by decide) _ _ tok hsep hbad2 with h2 | h2
      · exact hcur.2 tok htok h2
      · exact (hrest msg (List.mem_cons_self _ _)).2 tok htok h2
    · rw [if_neg hr] at hm2
      rcases List.mem_cons.mp hm2 with rfl | hm2'
      · exact hcur
      · exact ih msg (hrest msg (List.mem_cons_self _ _))
          (fun m hm => hrest m (List.mem_cons_of_mem _ hm)) m2 hm2'

theorem mergeGo_infix :
    ∀ (rest : List ChatMessage) (cur : ChatMessage),
    ∀ x ∈ cur :: rest, ∃ m2 ∈ mergeGo cur rest,
      x.content.getD [] <:+: m2.content.getD [] := by
  intro rest
  induction rest with
  | nil =>
    intro cur x hx
    rcases List.mem_cons.mp hx with rfl | hx2
    · rw [mergeGo]
      exact ⟨x, List.mem_singleton.mpr rfl, List.infix_refl _⟩
    · cases hx2
  | cons msg rest2 ih =>
    intro cur x hx
    rw [mergeGo]
    by_cases hr : (msg.role == cur.role) = true
    · rw [if_pos hr]
      rcases List.mem_cons.mp hx with rfl | hx2
      · obtain ⟨m2, hm2, hinf⟩ := ih { x with content := some (x.content.getD [] ++
            S "\n\n" ++ msg.content.getD []) } _ (List.mem_cons_self _ _)
        refine ⟨m2, hm2, List.IsInfix.trans ?_ hinf⟩
        exact ((List.prefix_append _ _).trans (List.prefix_append _ _)).isInfix
      · rcases List.mem_cons.mp hx2 with rfl | hx3
        · obtain ⟨m2, hm2, hinf⟩ := ih { cur with content := some (cur.content.getD [] ++
              S "\n\n" ++ x.content.getD []) } _ (List.mem_cons_self _ _)
          refine ⟨m2, hm2, List.IsInfix.trans ?_ hinf⟩
          exact (List.suffix_append _ _).isInfix
        · exact ih _ x (List.mem_cons_of_mem _ hx3)
    · rw [if_neg hr]
      rcases List.mem_cons.mp hx with rfl | hx2
      · exact ⟨x, List.mem_cons_self _ _, List.infix_refl _⟩
      · obtain ⟨m2, hm2, hinf⟩ := ih msg x hx2
        exact ⟨m2, List.mem_cons_of_mem _ hm2, hinf⟩

/-- C8, amended: with tools disabled, for any request whose messages are
hygienic (no delimiter token occurs in any text field, and tool_calls
fields ride only on assistant messages, nonempty), (i) the transformed
request carries no tools field, (ii) no message carries a structured
tool_calls field and no delimiter token occurs in any outgoing message
text, (iii) the output is exactly the per-message rewrite followed by
the adjacent-role merge, (iv) each assistant message bearing tool calls
is collapsed to its text plus a bracketed note listing the nonempty
called tool names, (v) each tool-role message becomes a user message
holding only a bracketed tool-result note, and (vi) every rewritten
message's full text survives into some output message (the merge only
concatenates).  The unamended claim is refuted by c8_counterexample: a
delimiter token inside an ordinary user message passes through to the
output verbatim. -/
theorem c8_amended (M : Markers) (req : ChatRequest)
    (hM : NonAsciiTok M)
    (hclean : ∀ m ∈ req.messages, MsgClean M m) :
    (transformRequest M false req).tools = none ∧
    (∀ m2 ∈ (transformRequest M false req).messages,
      m2.tool_calls = none ∧ ∀ tok ∈ tokensOf M, ¬ tok <:+: m2.content.getD []) ∧
    (transformRequest M false req).messages =
      mergeAdjacentMessages (req.messages.map (procMsg M false [])) ∧
    (∀ m ∈ req.messages, ∀ tc tcs, m.role = S "assistant" →
      m.tool_calls = some (tc :: tcs) →
      procMsg M false [] m =
        ⟨S "assistant",
         some (m.content.getD [] ++
           (S "\n\n[Called tools: " ++
            joinSep (S ", ")
              (((tc :: tcs).map TCall.name).filter (fun n => !n.isEmpty)) ++
            S "]")),
         none, none, none⟩) ∧
    (∀ m ∈ req.messages, m.role = S "tool" →
      procMsg M false [] m =
        ⟨S "user",
         some (S "[Tool result: " ++
           orElse m.name (orElse m.tool_call_id (S "unknown")) ++ S "]\n" ++
           (match m.content with
            | some s => s
            | none => S "undefined")),
         none, none, none⟩) ∧
    (∀ m ∈ req.messages, ∃ m2 ∈ (transformRequest M false req).messages,
      (procMsg M false [] m).content.getD [] <:+: m2.content.getD []) := by
  have hT : transformRequest M false req =
      ⟨mergeAdjacentMessages (req.messages.map (procMsg M false [])), none⟩ := by
    unfold transformRequest
    simp only [Bool.false_and, Bool.and_false, List.isEmpty_nil, Bool.not_true,
      Bool.false_eq_true, if_false]
  have hall : ∀ m ∈ req.messages.map (procMsg M false []), GoodMsg M m := by
    intro m hm
    obtain ⟨m0, hm0, rfl⟩ := List.mem_map.mp hm
    exact procMsg_good M hM m0 (hclean m0 hm0)
  refine ⟨by rw [hT], ?_, by rw [hT], ?_, ?_, ?_⟩
  · rw [hT]
    intro m2 hm2
    cases hmap : req.messages.map (procMsg M false []) with
    | nil =>
      rw [hmap] at hm2
      simp [mergeAdjacentMessages] at hm2
    | cons x xs =>
      rw [hmap] at hm2
      rw [hmap] at hall
      exact mergeGo_good M hM xs x (hall x (List.mem_cons_self x xs))
        (fun m hm => hall m (List.mem_cons_of_mem x hm)) m2 hm2
  · intro m hm tc tcs hrole hmt
    unfold procMsg
    rw [hrole, hmt]
    rfl
  · intro m hm hrole
    unfold procMsg
    rw [hrole]
    rfl
  · intro m hm
    rw [hT]
    have hmem : procMsg M false [] m ∈ req.messages.map (procMsg M false []) :=
      List.mem_map_of_mem _ hm
    cases hmap : req.messages.map (procMsg M false []) with
    | nil =>
      rw [hmap] at hmem
      cases hmem
    | cons x xs =>
      rw [hmap] at hmem
      exact mergeGo_infix xs x _ hmem

/-- The literal spec sentence: tools disabled plus stale assistant tool
calls yields no structured tool fields and no raw delimiter tokens in
any message text. -/
def claimC8 : Prop :=
  ∀ (M : Markers) (req : ChatRequest),
    req.tools = [] →
    (∃ m ∈ req.messages, m.role = S "assistant" ∧
      ∃ tc tcs, m.tool_calls = some (tc :: tcs)) →
    (transformRequest M false req).tools = none ∧
    ∀ m2 ∈ (transformRequest M false req).messages,
      m2.tool_calls = none ∧ ∀ tok ∈ tokensOf M, ¬ tok <:+: m2.content.getD []

def c8asst : ChatMessage :=
  ⟨S "assistant", some (S "ok"), some [⟨S "f", S "\x7b\x7d"⟩], none, none⟩

def c8user : ChatMessage :=
  ⟨S "user", some (S "look ༒龘ᐅ here"), none, none, none⟩

def c8req : ChatRequest := ⟨[c8asst, c8user], []⟩

/-- C8 counterexample: nothing scrubs delimiter tokens out of ordinary
message text — a token typed into a user message survives the
transform verbatim. -/
theorem c8_counterexample : ¬ claimC8 := by
  intro h
  have hres := h M0 c8req rfl
    ⟨c8asst, List.mem_cons_self _ _, rfl, ⟨S "f", S "\x7b\x7d"⟩, [], rfl⟩
  exact absurd hres.2 (by decide)

def c8cleanreq : ChatRequest :=
  ⟨[⟨S "assistant", some (S "ok"), some [⟨S "f", S "\x7b\x7d"⟩], none, none⟩,
    ⟨S "tool", some (S "42"), none, some (S "f"), some (S "call_1")⟩,
    ⟨S "user", some (S "hello"), none, none, none⟩], []⟩

/-- Witness for the amended C8 on a concrete hygienic request holding an
assistant message with a tool call, a tool-result message and a plain
user message. -/
theorem c8_amended_witness :
    NonAsciiTok M0 ∧
    ((transformRequest M0 false c8cleanreq).tools = none ∧
     (∀ m2 ∈ (transformRequest M0 false c8cleanreq).messages,
       m2.tool_calls = none ∧ ∀ tok ∈ tokensOf M0, ¬ tok <:+: m2.content.getD []) ∧
     (transformRequest M0 false c8cleanreq).messages =
       mergeAdjacentMessages (c8cleanreq.messages.map (procMsg M0 false [])) ∧
     (∀ m ∈ c8cleanreq.messages, ∀ tc tcs, m.role = S "assistant" →
       m.tool_calls = some (tc :: tcs) →
       procMsg M0 false [] m =
         ⟨S "assistant",
          some (m.content.getD [] ++
            (S "\n\n[Called tools: " ++
             joinSep (S ", ")
               (((tc :: tcs).map TCall.name).filter (fun n => !n.isEmpty)) ++
             S "]")),
          none, none, none⟩) ∧
     (∀ m ∈ c8cleanreq.messages, m.role = S "tool" →
       procMsg M0 false [] m =
         ⟨S "user",
          some (S "[Tool result: " ++
            orElse m.name (orElse m.tool_call_id (S "unknown")) ++ S "]\n" ++
            (match m.content with
             | some s => s
             | none => S "undefined")),
          none, none, none⟩) ∧
     (∀ m ∈ c8cleanreq.messages, ∃ m2 ∈ (transformRequest M0 false c8cleanreq).messages,
       (procMsg M0 false [] m).content.getD [] <:+: m2.content.getD [])) :=
  ⟨by unfold NonAsciiTok; decide,
   c8_amended M0 c8cleanreq (by unfold NonAsciiTok; decide) (by
     intro m hm
     rcases List.mem_cons.mp hm with rfl | hm2
     · exact ⟨by decide, by decide, by decide,
         (fun tcs htcs => by cases htcs; decide),
         Or.inr ⟨rfl, ⟨S "f", S "\x7b\x7d"⟩, [], rfl⟩⟩
     · rcases List.mem_cons.mp hm2 with rfl | hm3
       · exact ⟨by decide, by decide, by decide,
           (fun tcs htcs => Option.noConfusion htcs),
           Or.inl rfl⟩
       · rcases List.mem_cons.mp hm3 with rfl | hm4
         · exact ⟨by decide, by decide, by decide,
             (fun tcs htcs => Option.noConfusion htcs),
             Or.inl rfl⟩
         · cases hm4)⟩

/-- Instance of the amended C4 at a concrete marker set and request. -/
theorem c4_amended_witness :
    transformRequest M0 true ⟨[⟨S "user", some (S "hi"), none, none, none⟩], [c4tool]⟩ =
      ⟨[⟨S "system", some (getSystemPrompt M0 [c4tool, SCIFI_TOOL_DEF]), none, none, none⟩,
        fakeAssistantMsg M0,
        ⟨S "user", some (fakeToolResult M0 ++ S "\n\n" ++ S "hi"), none, none, none⟩],
       none⟩ :=
  c4_amended M0 (S "hi") c4tool
